import Mathlib

/-!
Shallow embedding of the core of `sylabs/oci-tools` (Go), for checking its
natural-language specification.  Each definition mirrors one Go function or
type from the repository source; machine integers are modelled as `Int`/`Nat`,
Go errors as explicit error values (`Except`), and a Go runtime panic as a
distinct result constructor.  Content digests (SHA-256 in the source) are
modelled as opaque numeric identifiers attached to content; JSON
(de)serialisation is treated as the identity on the structured values, which
is adequate because no claim inspects raw bytes.
-/

set_option maxRecDepth 10000

/-- Model of a content digest (`v1.Hash` in go-containerregistry): an opaque
identifier standing for an `algorithm:hex` pair. -/
abbrev Digest := Nat

/-- Model of a byte string. -/
abbrev Bytes := List Nat

namespace Mutate

/-! ### Layer selectors (`pkg/mutate`, layer selector source file)

`layerSelector` in Go is a slice of `int` where the nil slice selects all
layers.  It is modelled as `Option (List Int)` with `none` for the nil
slice. -/

/-- Errors produced by the mutation package. -/
inductive MutErr where
  /-- `errLayerIndexOutOfRange` = "layer index out of range". -/
  | layerIndexOutOfRange
  /-- `errInvalidLayerIndex` = "invalid layer index". -/
  | invalidLayerIndex
  /-- `errUnexpectedConfigFileType` = "unexpected config file type". -/
  | unexpectedConfigFileType
deriving DecidableEq, Repr

/-- `rangeLayerSelector(start, end)`: selects indices from `start` up to
`end`.  For `start >= end` the Go function returns a non-nil empty slice. -/
def rangeLayerSelector (start fin : Int) : Option (List Int) :=
  if start ≥ fin then some []
  else some ((List.range (fin - start).toNat).map (fun k => start + (k : Int)))

/-- The scan inside `layerSelector.indexSelected`: walk the selector entries
in order; adjust negative entries by `+n`; fail on the first out-of-range
entry; return `true` on the first entry equal to `i`. -/
def indexSelectedGo (i n : Int) : List Int → Except MutErr Bool
  | [] => .ok false
  | index :: rest =>
    let index := if index < 0 then index + n else index
    if index < 0 ∨ n ≤ index then .error .layerIndexOutOfRange
    else if index = i then .ok true
    else indexSelectedGo i n rest

/-- `layerSelector.indexSelected(i, n)`: nil selector selects everything. -/
def indexSelected (s : Option (List Int)) (i n : Int) : Except MutErr Bool :=
  match s with
  | none => .ok true
  | some l => indexSelectedGo i n l

/-- The loop of `layerSelector.layersSelected`: keep the layers whose index
is selected, propagating the first error. -/
def layersSelectedGo {α : Type} (s : Option (List Int)) (n : Int) :
    Int → List α → Except MutErr (List α)
  | _, [] => .ok []
  | i, l :: rest =>
    match indexSelected s i n with
    | .error e => .error e
    | .ok sel =>
      match layersSelectedGo s n (i + 1) rest with
      | .error e => .error e
      | .ok tail => if sel then .ok (l :: tail) else .ok tail

/-- `layerSelector.layersSelected(im)`: on the nil selector return all layers
unchecked; otherwise filter by `indexSelected`. -/
def layersSelected {α : Type} (s : Option (List Int)) (ls : List α) :
    Except MutErr (List α) :=
  match s with
  | none => .ok ls
  | some _ => layersSelectedGo s (ls.length : Int) 0 ls

/-! ### `SetLayer` (`pkg/mutate/mutate.go`) -/

/-- Result of running a Go function that can return an error or hit a
runtime panic (out-of-bounds slice access). -/
inductive GoResult (α : Type) where
  | ok (a : α)
  | err (e : MutErr)
  | panic
deriving DecidableEq, Repr

/-- `SetLayer(i, l)` applied to the `overrides` slice of the mutation
builder: the Go code rejects `i >= len(overrides)` with
`errInvalidLayerIndex` and otherwise executes `overrides[i] = l`, which
panics for negative `i`. -/
def setLayer {α : Type} (i : Int) (l : α) (overrides : List (Option α)) :
    GoResult (List (Option α)) :=
  if i ≥ (overrides.length : Int) then .err .invalidLayerIndex
  else if i < 0 then .panic
  else .ok (overrides.set i.toNat (some l))

end Mutate

namespace Mutate

/-! ### Mutated image materialisation (`pkg/mutate/image.go`, `mutate.go`) -/

/-- Model of `v1.Descriptor`: the fields the mutation pipeline reads or
writes. -/
structure DescriptorM where
  mediaType : String
  digest : Digest
  size : Int
  data : Option Bytes := none
deriving DecidableEq, Repr

/-- Model of a `v1.Layer`: its manifest descriptor and its diff-id
(digest of the uncompressed bytes). -/
structure LayerM where
  desc : DescriptorM
  diffID : Digest
deriving DecidableEq, Repr

/-- Model of `v1.History`: treated as an opaque record. -/
abbrev HistoryM := String

/-- Model of `v1.ConfigFile`: the fields `populate` reads or writes
(`rootfs.diff_ids` and `history`); all other content is opaque. -/
structure ConfigFileM where
  rootfsDiffIDs : List Digest
  history : List HistoryM
  rest : String := ""
deriving DecidableEq, Repr

/-- Model of a `v1.Manifest`. -/
structure ManifestM where
  mediaType : String
  config : DescriptorM
  layers : List DescriptorM
deriving DecidableEq, Repr

/-- Model of a Go `any` value held in `image.configFileOverride` /
`image.configFile`: either a parsed `*v1.ConfigFile` or some other value
(raw bytes), distinguished by the type assertion in the source. -/
inductive ConfigVal where
  | parsed (cf : ConfigFileM)
  | raw (b : Bytes)
deriving DecidableEq, Repr

/-- `types.MediaType.IsConfig` from go-containerregistry: true exactly for
the OCI and Docker config media types. -/
def isConfigMT (mt : String) : Bool :=
  mt = "application/vnd.oci.image.config.v1+json" ∨
  mt = "application/vnd.docker.container.image.v1+json"

/-- Model of a base `v1.Image` consumed by the mutation pipeline. -/
structure BaseImage where
  manifest : ManifestM
  layers : List LayerM
  configFile : ConfigFileM
  rawConfigFile : Bytes
deriving DecidableEq, Repr

/-- The mutable state of the `image` struct built by `Apply`. -/
structure MutImage where
  base : BaseImage
  overrides : List (Option LayerM)
  history : Option HistoryM := none
  configFileOverride : Option ConfigVal := none
  configTypeOverride : String := ""
deriving DecidableEq, Repr

/-- Stand-in for SHA-256 over bytes: an arbitrary fixed computable digest
function (no claim depends on its value). -/
def hashBytes (b : Bytes) : Digest :=
  b.foldl (fun a x => a * 31 + x + 1) 7

/-- Stand-in for `json.Marshal` of a config value (no claim inspects the
resulting bytes). -/
def encodeConfigVal : ConfigVal → Bytes
  | .parsed cf => cf.rootfsDiffIDs ++ [cf.history.length]
  | .raw b => b

/-- The layer/descriptor loop of `image.populate`: for each override slot,
the effective layer is the override if non-nil, else the base layer at the
same index; a missing base layer is the Go out-of-range panic. -/
def populateLayers (ls : List LayerM) :
    Nat → List (Option LayerM) → GoResult (List LayerM)
  | _, [] => .ok []
  | i, o :: rest =>
    match (match o with | some l => some l | none => ls.get? i) with
    | none => .panic
    | some l =>
      match populateLayers ls (i + 1) rest with
      | .ok tail => .ok (l :: tail)
      | r => r

/-- The populated (`computed`) fields of the `image` struct. -/
structure Populated where
  diffIDs : List Digest
  manifest : ManifestM
  configFile : Option ConfigVal
  rawConfigFile : Bytes
deriving DecidableEq, Repr

/-- `image.populate`, step by step from the source: build the effective
layer descriptors and diff-ids; choose the config value and media type
(falling back to the base when no override is present); rewrite
`rootfs.diff_ids` (and history) only for a standard config media type,
failing with `errUnexpectedConfigFileType` when the value is not a parsed
config file; serialise; patch the manifest's config descriptor. -/
def populate (img : MutImage) : GoResult Populated :=
  match populateLayers img.base.layers 0 img.overrides with
  | .panic => .panic
  | .err e => .err e
  | .ok eff =>
    let layers := eff.map (·.desc)
    let diffIDs := eff.map (·.diffID)
    let manifest := { img.base.manifest with layers := layers }
    let configFile := img.configFileOverride
    let configType := img.configTypeOverride
    let (configFile, configType) :=
      match configFile with
      | some v => (some v, configType)
      | none =>
        let configType := manifest.config.mediaType
        if isConfigMT configType then
          (some (.parsed img.base.configFile), configType)
        else (none, configType)
    match
      (if isConfigMT configType then
        match configFile with
        | some (.parsed cf) =>
          let cf := { cf with rootfsDiffIDs := diffIDs }
          let cf :=
            match img.history with
            | some h => { cf with history := [h] }
            | none => cf
          .ok (some (ConfigVal.parsed cf))
        | _ => .err MutErr.unexpectedConfigFileType
      else .ok configFile : GoResult (Option ConfigVal)) with
    | .panic => .panic
    | .err e => .err e
    | .ok configFile =>
      let config :=
        match configFile with
        | some v => encodeConfigVal v
        | none => img.base.rawConfigFile
      let cfgDesc := { manifest.config with
        mediaType := configType
        digest := hashBytes config
        size := (config.length : Int)
        data := match manifest.config.data with
                | some _ => some config
                | none => none }
      .ok { diffIDs := diffIDs
            manifest := { manifest with config := cfgDesc }
            configFile := configFile
            rawConfigFile := config }

/-- `image.ConfigFile()`: populate, then type-assert the stored config value
as a parsed config file. -/
def imageConfigFile (img : MutImage) : GoResult ConfigFileM :=
  match populate img with
  | .panic => .panic
  | .err e => .err e
  | .ok p =>
    match p.configFile with
    | some (.parsed cf) => .ok cf
    | _ => .err .unexpectedConfigFileType

/-- A single mutation passed to `Apply`. -/
inductive Mutation where
  | setLayer (i : Int) (l : LayerM)
  | replaceLayers (l : LayerM)
  | setHistory (h : HistoryM)
  | setConfig (v : Option ConfigVal) (t : String)
deriving Repr

/-- Application of one mutation to the builder state, as in the source:
`SetLayer` bounds-checks (and can panic), `ReplaceLayers` replaces the
whole overrides slice with one entry, `SetHistory` and `SetConfig` set
their fields. -/
def applyMutation (img : MutImage) : Mutation → GoResult MutImage
  | .setLayer i l =>
    match setLayer i l img.overrides with
    | .ok ov => .ok { img with overrides := ov }
    | .err e => .err e
    | .panic => .panic
  | .replaceLayers l => .ok { img with overrides := [some l] }
  | .setHistory h => .ok { img with history := some h }
  | .setConfig v t =>
    .ok { img with configFileOverride := v, configTypeOverride := t }

/-- The mutation loop of `Apply`. -/
def applyMutations (img : MutImage) : List Mutation → GoResult MutImage
  | [] => .ok img
  | m :: ms =>
    match applyMutation img m with
    | .ok img => applyMutations img ms
    | .err e => .err e
    | .panic => .panic

/-- `Apply(base, ms...)`: with no mutations the base image is returned
unchanged (`none` here); otherwise a fresh builder with `overrides` of the
base's layer count is threaded through the mutations. -/
def Apply (base : BaseImage) (ms : List Mutation) :
    GoResult (Option MutImage) :=
  if ms.isEmpty then .ok none
  else
    match applyMutations
        { base := base, overrides := List.replicate base.layers.length none }
        ms with
    | .ok img => .ok (some img)
    | .err e => .err e
    | .panic => .panic

/-- The effective layers of a builder state (override where set, base layer
otherwise), as a partial specification value. -/
def effectiveLayers (img : MutImage) : GoResult (List LayerM) :=
  populateLayers img.base.layers 0 img.overrides

end Mutate

namespace Sif

/-! ### Artifact store (`pkg/sif/update.go`, `sif.go`, write helpers)

The in-memory view of an OCI image index tree, as traversed by
`cacheIndexBlobs` / `cacheImageBlobs`: an index holds children that are
either images (with layer digests, a config digest and a manifest digest)
or sub-indices.  Digests of manifests are carried as fields; in the source
they are SHA-256 of the corresponding raw manifest bytes. -/

mutual
/-- A child of an image index: an image or a sub-index. -/
inductive ITree where
  | img (layers : List Digest) (config : Digest) (digest : Digest)
  | idx (children : ITreeList) (digest : Digest)

/-- A list of index children (spelled out so that structural recursion over
the nested tree is available). -/
inductive ITreeList where
  | nil
  | cons (head : ITree) (tail : ITreeList)
end

/-- The manifest digest of a node. -/
def ITree.digestOf : ITree → Digest
  | .img _ _ d => d
  | .idx _ d => d

/-- One caching decision: a digest goes to `cached` if absent from `skip`,
else to `skipped`.  (Writing the blob bytes to the cache directory carries
no information the claims need beyond the digest lists.) -/
def cacheStep (skip : List Digest) (acc : List Digest × List Digest)
    (d : Digest) : List Digest × List Digest :=
  if d ∈ skip then (acc.1, acc.2 ++ [d]) else (acc.1 ++ [d], acc.2)

/-- `cacheImageBlobs(im, skip, dir)`: walk layers, then the config, then
the image manifest itself, applying the caching decision to each digest. -/
def cacheImageBlobs (layers : List Digest) (config manifest : Digest)
    (skip : List Digest) : List Digest × List Digest :=
  cacheStep skip
    (cacheStep skip (layers.foldl (cacheStep skip) ([], [])) config) manifest

mutual
/-- `cacheIndexBlobs(ii, skip, dir)` restricted to one child descriptor:
for a sub-index, recurse into its children and then cache the sub-index
manifest itself; for an image, defer to `cacheImageBlobs`. -/
def cacheChild (skip : List Digest) : ITree → List Digest × List Digest
  | .img ls cfg d => cacheImageBlobs ls cfg d skip
  | .idx cs d =>
    let r := cacheChildren skip cs
    if d ∈ skip then (r.1, r.2 ++ [d]) else (r.1 ++ [d], r.2)

/-- The loop of `cacheIndexBlobs` over `index.Manifests`. -/
def cacheChildren (skip : List Digest) : ITreeList → List Digest × List Digest
  | .nil => ([], [])
  | .cons c rest =>
    let r1 := cacheChild skip c
    let r2 := cacheChildren skip rest
    (r1.1 ++ r2.1, r1.2 ++ r2.2)
end

/-- SIF object descriptor data types relevant to the OCI store. -/
inductive DType where
  | ociBlob
  | ociRootIndex
deriving DecidableEq, Repr

/-- A SIF descriptor: a typed, content-addressed object.
`Descriptor.OCIBlobDigest` succeeds for both `DataOCIBlob` and
`DataOCIRootIndex` descriptors, so both carry their digest here. -/
structure SifDescriptor where
  dtype : DType
  digest : Digest
deriving DecidableEq, Repr

/-- The SIF file contents visible to the OCI store: its descriptor list. -/
structure SIFState where
  descs : List SifDescriptor
deriving DecidableEq, Repr

/-- Errors surfaced by the modelled SIF operations. -/
inductive SifErr where
  /-- `GetDescriptor` found no matching descriptor. -/
  | objectNotFound
  /-- `GetDescriptor` found multiple matching descriptors. -/
  | multipleObjectsFound
  /-- `errUnexpectedMediaType`. -/
  | unexpectedMediaType
  /-- `errMultipleRefNames`. -/
  | multipleRefNames
  /-- `errDescriptorNotFoundInIndex`. -/
  | descriptorNotFound
deriving DecidableEq, Repr

/-- `GetDescriptor(WithDataType(DataOCIRootIndex))`, as used by
`OCIFileImage.RootIndex`: exactly one match required. -/
def getRootDigest (st : SIFState) : Except SifErr Digest :=
  match st.descs.filter (fun d => d.dtype = DType.ociRootIndex) with
  | [d] => .ok d.digest
  | [] => .error .objectNotFound
  | _ => .error .multipleObjectsFound

/-- `sifBlobs(fi)`: digests of all `DataOCIBlob` descriptors. -/
def sifBlobs (st : SIFState) : List Digest :=
  (st.descs.filter (fun d => d.dtype = DType.ociBlob)).map (·.digest)

/-- `selectBlobsExcept(keep)` as a predicate on descriptors: selects every
descriptor whose `OCIBlobDigest` succeeds (both OCI data types) and whose
digest is not in `keep`. -/
def selectBlobsExcept (keep : List Digest) (d : SifDescriptor) : Bool :=
  decide (d.digest ∉ keep)

/-- `OCIFileImage.UpdateRootIndex(ii)` where `ii` is an index with the given
children and manifest digest: return unchanged if the root digest already
matches; otherwise cache the blobs of `ii` (skipping those already stored),
delete every descriptor not kept, append the cached blobs as `DataOCIBlob`
descriptors, and write the new root index. -/
def updateRootIndex (st : SIFState) (children : ITreeList) (dig : Digest) :
    Except SifErr SIFState :=
  match getRootDigest st with
  | .error e => .error e
  | .ok sifRootDigest =>
    if sifRootDigest = dig then .ok st
    else
      let sb := sifBlobs st
      let r := cacheChildren sb children
      let cachedBlobs := r.1
      let keepBlobs := r.2
      let descs := st.descs.filter (fun d => ¬ selectBlobsExcept keepBlobs d)
      let descs := descs ++ cachedBlobs.map (fun h => ⟨DType.ociBlob, h⟩)
      .ok ⟨descs ++ [⟨DType.ociRootIndex, dig⟩]⟩

mutual
/-- Specification value: the digests transitively reachable from an index
child (layers, configs and manifests of images; manifests of sub-indices),
mirroring the traversal of `cacheIndexBlobs`. -/
def reachChild : ITree → List Digest
  | .img ls cfg d => ls ++ [cfg, d]
  | .idx cs d => reachChildren cs ++ [d]

/-- Digests reachable from a list of index children. -/
def reachChildren : ITreeList → List Digest
  | .nil => []
  | .cons c rest => reachChild c ++ reachChildren rest
end

end Sif

namespace Sif

/-! ### `OCIFileImage.append` and `removeRefAnnot`
(`pkg/sif/update.go`)

The root index manifest is a list of descriptors; each carries a media
type, digest, size and an annotation map (modelled as an association list
with map semantics: unique keys, insert replaces or appends). -/

/-- The `org.opencontainers.image.ref.name` annotation key. -/
def refAnnot : String := "org.opencontainers.image.ref.name"

/-- The `vnd.sylabs.image.prev.ref.name` annotation key. -/
def prevRefAnnot : String := "vnd.sylabs.image.prev.ref.name"

/-- Lookup in a Go `map[string]string` modelled as an association list. -/
def annGet (anns : List (String × String)) (k : String) : Option String :=
  (anns.find? (fun p => p.1 = k)).map (·.2)

/-- Go map assignment `m[k] = v`: replace the existing binding or append. -/
def annSet (anns : List (String × String)) (k v : String) :
    List (String × String) :=
  if (anns.find? (fun p => p.1 = k)).isSome then
    anns.map (fun p => if p.1 = k then (k, v) else p)
  else anns ++ [(k, v)]

/-- Go `delete(m, k)`. -/
def annDelete (anns : List (String × String)) (k : String) :
    List (String × String) :=
  anns.filter (fun p => p.1 ≠ k)

/-- A root-index entry descriptor (`v1.Descriptor` with annotations).  The
annotation map is a Go `map[string]string`, which may be `nil`: `none`
models the nil map, `some []` an allocated empty map (lookups behave the
same, but a Go assignment into a nil map panics). -/
structure IndexEntry where
  mediaType : String
  digest : Digest
  size : Int
  annotations : Option (List (String × String)) := none
deriving DecidableEq, Repr

/-- Contents of a possibly-nil Go map: lookup, iteration and `delete` over
a nil map behave as over an empty one. -/
def annsOf (a : Option (List (String × String))) : List (String × String) :=
  a.getD []

/-- `types.MediaType.IsImage` from go-containerregistry. -/
def isImageMT (mt : String) : Bool :=
  mt = "application/vnd.docker.distribution.manifest.v2+json" ∨
  mt = "application/vnd.oci.image.manifest.v1+json"

/-- `types.MediaType.IsIndex` from go-containerregistry. -/
def isIndexMT (mt : String) : Bool :=
  mt = "application/vnd.docker.distribution.manifest.list.v2+json" ∨
  mt = "application/vnd.oci.image.index.v1+json"

/-- `match.Annotation(refAnnot, name)` applied to an entry (a lookup in a
nil map yields the empty string, so a nil-annotation entry never
matches). -/
def matchesRef (name : String) (e : IndexEntry) : Bool :=
  annGet (annsOf e.annotations) refAnnot = some name

/-- Result of a modelled SIF operation that can also hit a Go runtime
panic (an assignment into a nil map). -/
inductive SifResult (α : Type) where
  | ok (a : α)
  | err (e : SifErr)
  | panic
deriving DecidableEq, Repr

/-- `imageIndex.findDescriptor(h)`: the first root-index entry carrying
the supplied digest, or `errDescriptorNotFoundInIndex`. -/
def findDescriptor (entries : List IndexEntry) (dig : Digest) :
    Except SifErr IndexEntry :=
  match entries.find? (fun d => d.digest = dig) with
  | some d => .ok d
  | none => .error .descriptorNotFound

/-- `imageIndex.Image(h)`, as far as `append` observes it: find the first
entry with digest `h` via `findDescriptor`, require that entry's media
type to be an image type (`errUnexpectedMediaType` otherwise), and read
the manifest bytes with `f.Bytes(h)` (failing when no blob with that
digest is stored).  `partial.Descriptor` of the resulting appendable is
the found entry's descriptor. -/
def indexGetImage (entries : List IndexEntry) (blobs : List Digest)
    (dig : Digest) : Except SifErr IndexEntry :=
  match findDescriptor entries dig with
  | .error e => .error e
  | .ok d =>
    if isImageMT d.mediaType then
      if dig ∈ blobs then .ok d else .error .objectNotFound
    else .error .unexpectedMediaType

/-- `imageIndex.ImageIndex(h)`: as `indexGetImage`, but requiring an index
media type on the found entry. -/
def indexGetImageIndex (entries : List IndexEntry) (blobs : List Digest)
    (dig : Digest) : Except SifErr IndexEntry :=
  match findDescriptor entries dig with
  | .error e => .error e
  | .ok d =>
    if isIndexMT d.mediaType then
      if dig ∈ blobs then .ok d else .error .objectNotFound
    else .error .unexpectedMediaType

/-- `removeRefAnnot(ii, ref)`: find entries annotated with the
reference name; fail on more than one; on exactly one, retrieve the
corresponding appendable by digest via `ii.Image` / `ii.ImageIndex`
(branching on the matched descriptor's media type; the retrieval itself
finds the FIRST entry carrying the digest and checks that entry's media
type), clone the retrieved descriptor's annotations, delete the ref
annotation and record the old reference under `prevRefAnnot` (a Go panic
when the retrieved descriptor's annotation map is nil, since
`maps.Clone(nil) = nil`), then remove every matching entry and append the
retrieved descriptor with the new annotations (the source forces the
extra annotation so that the non-empty annotation map overrides the
appendable's own descriptor). -/
def removeRefAnnot (entries : List IndexEntry) (blobs : List Digest)
    (name : String) : SifResult (List IndexEntry) :=
  let found := entries.filter (matchesRef name)
  if 1 < found.length then .err .multipleRefNames
  else
    match found with
    | [] => .ok entries
    | oldDesc :: _ =>
      let retrieved :=
        if isImageMT oldDesc.mediaType then
          indexGetImage entries blobs oldDesc.digest
        else if isIndexMT oldDesc.mediaType then
          indexGetImageIndex entries blobs oldDesc.digest
        else .error .unexpectedMediaType
      match retrieved with
      | .error e => .err e
      | .ok d =>
        match d.annotations with
        | none => .panic
        | some anns =>
          let anns := annDelete anns refAnnot
          let anns := annSet anns prevRefAnnot name
          let entries := entries.filter (fun e => ¬ matchesRef name e)
          .ok (entries ++
            [{ mediaType := d.mediaType, digest := d.digest,
               size := d.size, annotations := some anns }])

/-- `OCIFileImage.append` up to the point where the new root index has been
computed (the persisted root is this index, via `UpdateRootIndex`): strip
an existing identical reference annotation if a reference was supplied,
then append the new item's descriptor, annotated with the reference when
one was supplied (the source clones the addendum's annotations when
non-nil and allocates a fresh map otherwise, so no panic arises here). -/
def appendRootIndex (entries : List IndexEntry) (blobs : List Digest)
    (add : IndexEntry) (ref : Option String) :
    SifResult (List IndexEntry) :=
  match ref with
  | none => .ok (entries ++ [add])
  | some name =>
    match removeRefAnnot entries blobs name with
    | .err e => .err e
    | .panic => .panic
    | .ok entries =>
      let anns := annSet (annsOf add.annotations) refAnnot name
      .ok (entries ++ [{ add with annotations := some anns }])

/-- The state of a SIF through `append`: the root-index entry list plus
the digests whose blobs are stored (those for which `f.Bytes` succeeds).
`append` computes the new root index and only then mutates the file via
`UpdateRootIndex`; on an error from `removeRefAnnot` the file has not
been touched. -/
structure AppendState where
  root : List IndexEntry
  blobs : List Digest
deriving DecidableEq, Repr

/-- Outcome of `OCIFileImage.append` on the file state: success with the
new state, an error returned before any file mutation (the unchanged
state is carried alongside), or a Go runtime panic. -/
inductive AppendResult where
  | ok (st : AppendState)
  | err (st : AppendState) (e : SifErr)
  | panic
deriving DecidableEq, Repr

/-- `OCIFileImage.append` as a transition on the file state, abstracting
the persistence step (`UpdateRootIndex`, modelled separately) as the
replacement of the root entries: on error, the state is returned unchanged
exactly as the source returns before any file mutation. -/
def appendOp (st : AppendState) (add : IndexEntry) (ref : Option String)
    (newBlobs : List Digest) : AppendResult :=
  match appendRootIndex st.root st.blobs add ref with
  | .err e => .err st e
  | .panic => .panic
  | .ok root => .ok { st with root := root, blobs := newBlobs }

end Sif

namespace Tar

/-! ### Tar stream model

A tar stream is a list of entries; each entry is a header plus content
bytes.  The `Format` field of `tar.Header` is not modelled: the C3 claim is
explicitly stated modulo PAX/GNU framing, and forcing `FormatPAX` is the
only write to that field in the translator. -/

/-- `tar.Header.Typeflag` values used by the translator and squash engine. -/
inductive TypeFlag where
  | reg
  | dir
  | link
  | symlink
  | char
  | block
  | fifo
deriving DecidableEq, Repr

/-- The `tar.Header` fields read or written by the translator and the
squash engine.  PAX records are an association list with map semantics. -/
structure TarHeader where
  name : String
  typeflag : TypeFlag
  linkname : String := ""
  size : Int := 0
  mode : Int := 0
  uid : Int := 0
  gid : Int := 0
  uname : String := ""
  gname : String := ""
  modTime : Int := 0
  accessTime : Int := 0
  changeTime : Int := 0
  devmajor : Int := 0
  devminor : Int := 0
  paxRecords : List (String × String) := []
deriving DecidableEq, Repr

/-- A tar entry: header plus content (the source streams content with
`io.Copy`/`io.CopyN`; the model carries it inline, with length equal to
`size` for well-formed streams). -/
structure TarEntry where
  hdr : TarHeader
  content : Bytes := []
deriving DecidableEq, Repr

/-- `strings.HasPrefix`. -/
def strHasPre (pre s : String) : Bool :=
  pre.data.isPrefixOf s.data

/-- `strings.TrimPrefix`. -/
def trimPre (pre s : String) : String :=
  if pre.data.isPrefixOf s.data then ⟨s.data.drop pre.data.length⟩ else s

/-- `strings.TrimSuffix(s, "/")`: remove one trailing separator if
present. -/
def trimSlashSuffix (s : String) : String :=
  if s.data ≠ [] ∧ s.data.getLast? = some '/' then ⟨s.data.dropLast⟩ else s

/-- `filepath.Split`: split after the final separator into
`(parent-including-slash, base)`. -/
def splitPath (s : String) : String × String :=
  let rs := s.data.reverse
  (⟨(rs.dropWhile (fun c => c ≠ '/')).reverse⟩,
   ⟨(rs.takeWhile (fun c => c ≠ '/')).reverse⟩)

/-- The AUFS whiteout marker filename prefix `.wh.`. -/
def aufsWhPre : String := ".wh."

/-- The AUFS opaque-directory marker filename `.wh..wh..opq`. -/
def aufsOpaqueMarker : String := ".wh..wh..opq"

/-- The PAX record key `SCHILY.xattr.trusted.overlay.opaque`. -/
def schilyOpaqueXattr : String := "SCHILY.xattr.trusted.overlay.opaque"

/-- Go `map[string]bool` of opaque paths: a list of keys with set
semantics. -/
def opqInsert (m : List String) (k : String) : List String :=
  if k ∈ m then m else m ++ [k]

/-- The loop body of `scanAUFSWhiteouts` for one tar header. -/
def scanStep (acc : List String × Bool) (e : TarEntry) : List String × Bool :=
  let pb := splitPath e.hdr.name
  let acc :=
    if pb.2 = aufsOpaqueMarker then (opqInsert acc.1 pb.1, acc.2) else acc
  if ¬ acc.2 ∧ strHasPre aufsWhPre pb.2 then (acc.1, true) else acc

/-- `scanAUFSWhiteouts`: one pass recording the parent of every entry whose
base name is the opaque marker, and whether any base name carries the
whiteout marker filename prefix. -/
def scanAUFSWhiteouts (es : List TarEntry) : List String × Bool :=
  es.foldl scanStep ([], false)

/-- Error raised by the second translator pass. -/
inductive WhErr where
  /-- `errUnexpectedOpaque`. -/
  | unexpectedOpaque
deriving DecidableEq, Repr

/-- `whiteoutsToOverlayFS`: drop opaque markers (whose parents must have
been scanned), stamp the overlay opaque xattr on entries whose name was
recorded as an opaque parent, rewrite `.wh.<name>` entries to 0/0
character devices at `<parent><name>` (header only, no content copied),
and pass everything else through. -/
def whiteoutsToOverlayFS (es : List TarEntry) (opaquePaths : List String) :
    Except WhErr (List TarEntry) :=
  match es with
  | [] => .ok []
  | e :: rest =>
    let hdr := e.hdr
    let pb := splitPath hdr.name
    if pb.2 = aufsOpaqueMarker then
      if pb.1 ∉ opaquePaths then .error .unexpectedOpaque
      else whiteoutsToOverlayFS rest opaquePaths
    else
      let hdr :=
        if hdr.name ∈ opaquePaths then
          { hdr with paxRecords :=
              Sif.annSet hdr.paxRecords schilyOpaqueXattr "y" }
        else hdr
      if strHasPre aufsWhPre pb.2 then
        let hdr := { hdr with
          name := pb.1 ++ trimPre aufsWhPre pb.2
          typeflag := TypeFlag.char
          devmajor := 0
          devminor := 0 }
        (whiteoutsToOverlayFS rest opaquePaths).map
          (fun out => ⟨hdr, []⟩ :: out)
      else
        (whiteoutsToOverlayFS rest opaquePaths).map
          (fun out => ⟨hdr, e.content⟩ :: out)

/-- The zero-filled `tar.Header` literal emitted by `whiteoutsToAUFS` for a
re-created opaque marker file inside directory `d`. -/
def opaqueMarkerFor (d : TarHeader) : TarHeader :=
  { name := trimSlashSuffix d.name ++ "/" ++ aufsOpaqueMarker
    typeflag := TypeFlag.reg
    size := 0
    mode := 0o600
    uid := d.uid
    gid := d.gid
    uname := d.uname
    gname := d.gname
    accessTime := d.accessTime
    changeTime := d.changeTime }

/-- `whiteoutsToAUFS`: a directory carrying the overlay opaque xattr is
re-emitted without the xattr followed by a fresh `.wh..wh..opq` marker
file; a 0/0 character device becomes a zero-size regular `.wh.<base>`
file with mode `0600`; everything else passes through. -/
def whiteoutsToAUFS (es : List TarEntry) : List TarEntry :=
  match es with
  | [] => []
  | e :: rest =>
    let hdr := e.hdr
    if hdr.typeflag = TypeFlag.dir ∧
        Sif.annGet hdr.paxRecords schilyOpaqueXattr = some "y" then
      let d := { hdr with
        paxRecords := Sif.annDelete hdr.paxRecords schilyOpaqueXattr }
      ⟨d, []⟩ :: ⟨opaqueMarkerFor d, []⟩ :: whiteoutsToAUFS rest
    else if hdr.typeflag = TypeFlag.char ∧ hdr.devmajor = 0 ∧
        hdr.devminor = 0 then
      let pb := splitPath hdr.name
      let hdr := { hdr with
        typeflag := TypeFlag.reg
        name := pb.1 ++ aufsWhPre ++ pb.2
        size := 0
        mode := 0o600 }
      ⟨hdr, e.content⟩ :: whiteoutsToAUFS rest
    else ⟨hdr, e.content⟩ :: whiteoutsToAUFS rest

/-- The AUFS → OverlayFS → AUFS pipeline of the C3 claim: scan, filter
forward with the scanned opaque set, then filter back. -/
def aufsRoundTrip (es : List TarEntry) : Except WhErr (List TarEntry) :=
  (whiteoutsToOverlayFS es (scanAUFSWhiteouts es).1).map whiteoutsToAUFS

end Tar

namespace Squash

open Tar

/-! ### Layer-squash engine (`pkg/mutate/squash.go`)

Path helpers model Go `path/filepath` for slash-separated relative paths
(the only form of name the changeset format uses; no `..` handling is
required by the corpus inputs). -/

/-- Split a character list at separators (the semantics of
`strings.Split(s, "/")`, implemented by structural recursion so that the
kernel can evaluate it). -/
def splitSegsAux : List Char → List Char → List String
  | [], cur => [⟨cur.reverse⟩]
  | c :: rest, cur =>
    if c = '/' then ⟨cur.reverse⟩ :: splitSegsAux rest []
    else splitSegsAux rest (c :: cur)

/-- The `/`-separated segments of a path. -/
def splitSegs (s : String) : List String :=
  splitSegsAux s.data []

/-- Rejoin path segments with `/`. -/
def joinSegs : List String → String
  | [] => ""
  | [x] => x
  | x :: rest => x ++ "/" ++ joinSegs rest

/-- `filepath.Clean` for relative slash paths: drop empty and `.` segments,
rejoin; the empty path cleans to `.`. -/
def cleanPath (s : String) : String :=
  let segs := (splitSegs s).filter (fun x => x ≠ "" ∧ x ≠ ".")
  if segs = [] then "." else joinSegs segs

/-- `filepath.Base`: strip trailing separators, then take the last
element. -/
def baseName (s : String) : String :=
  if s = "" then "." else
  let t := s.data.reverse.dropWhile (fun c => c = '/')
  if t = [] then "/" else ⟨(t.takeWhile (fun c => c ≠ '/')).reverse⟩

/-- `filepath.Dir`: everything up to the final separator, cleaned. -/
def dirName (s : String) : String :=
  cleanPath (splitPath s).1

/-- `filepath.Join` on two elements. -/
def joinPath (a b : String) : String :=
  if a = "" then (if b = "" then "" else cleanPath b)
  else if b = "" then cleanPath a
  else cleanPath (a ++ "/" ++ b)

/-- The `shadow` record of the squash engine. -/
structure Shadow where
  exact : Bool
  children : Bool
deriving DecidableEq, Repr

/-- `map[string]shadow` with Go zero-value lookup. -/
abbrev ShadowMap := List (String × Shadow)

/-- Go map read `m[k]` (zero value on a missing key). -/
def shadowLookup (m : ShadowMap) (k : String) : Shadow :=
  ((m.find? (fun p => p.1 = k)).map (·.2)).getD ⟨false, false⟩

/-- Whether `k` is present in the map (the `ok` of `v, ok := m[k]`). -/
def shadowMem (m : ShadowMap) (k : String) : Bool :=
  (m.find? (fun p => p.1 = k)).isSome

/-- Go map write `m[k] = v`. -/
def shadowSet (m : ShadowMap) (k : String) (v : Shadow) : ShadowMap :=
  if shadowMem m k then m.map (fun p => if p.1 = k then (k, v) else p)
  else m ++ [(k, v)]

/-- The `entry` record of the squash engine: a header, whether the path was
shadowed by a later changeset, and (for shadowed entries) the buffered
content bytes. -/
structure SEntry where
  hdr : TarHeader
  shadowed : Bool
  b : Bytes := []
deriving DecidableEq, Repr

/-- `map[string][]entry` of pending hard links. -/
abbrev LinkMap := List (String × List SEntry)

/-- Go map read with zero value (`nil` slice). -/
def linksLookup (m : LinkMap) (k : String) : List SEntry :=
  ((m.find? (fun p => p.1 = k)).map (·.2)).getD []

/-- Go map write `m[k] = v`. -/
def linksSet (m : LinkMap) (k : String) (v : List SEntry) : LinkMap :=
  if (m.find? (fun p => p.1 = k)).isSome then
    m.map (fun p => if p.1 = k then (k, v) else p)
  else m ++ [(k, v)]

/-- Go `delete(m, k)`. -/
def linksDelete (m : LinkMap) (k : String) : LinkMap :=
  m.filter (fun p => p.1 ≠ k)

/-- The `imageState` of the squash engine; `out` is the TAR stream written
so far. -/
structure ImageState where
  out : List TarEntry := []
  imageShadows : ShadowMap := []
  imageLinks : LinkMap := []
  layerWhiteouts : ShadowMap := []
  layerEntries : List SEntry := []
deriving DecidableEq, Repr

/-- The ancestor walk of `imageState.isShadowed`, with fuel bounding the
`filepath.Dir` chain (each step strictly shortens a relative path, so the
name length bounds the walk). -/
def isShadowedUp (m : ShadowMap) : Nat → String → Bool
  | 0, _ => false
  | fuel + 1, name =>
    if name = "." then false
    else
      let dir := dirName name
      if (shadowLookup m dir).children then true
      else isShadowedUp m fuel dir

/-- `imageState.isShadowed(name)`: an exact shadow on the name itself, or a
`children` shadow on any ancestor. -/
def isShadowed (m : ShadowMap) (name : String) : Bool :=
  if shadowMem m name ∧ (shadowLookup m name).exact then true
  else isShadowedUp m (name.length + 1) name

/-- `imageState.writeChangesetEntry(hdr, r)`. -/
def writeChangesetEntry (st : ImageState) (hdr : TarHeader)
    (content : Bytes) : ImageState :=
  let base := baseName hdr.name
  if strHasPre aufsWhPre base then
    let opaqueWh := base = aufsOpaqueMarker
    let name := dirName hdr.name
    let name :=
      if opaqueWh then name else joinPath name (trimPre aufsWhPre base)
    let is := shadowLookup st.layerWhiteouts name
    let is := { is with children := true }
    let is := if opaqueWh then is else { is with exact := true }
    { st with layerWhiteouts := shadowSet st.layerWhiteouts name is }
  else
    let name := cleanPath hdr.name
    let hdr := { hdr with
      name := if hdr.typeflag = TypeFlag.dir then name ++ "/" else name }
    let shadowed := isShadowed st.imageShadows name
    if hdr.typeflag = TypeFlag.link then
      let st := { st with
        imageShadows := shadowSet st.imageShadows name ⟨true, true⟩ }
      { st with imageLinks := (linksSet st.imageLinks hdr.linkname
          (linksLookup st.imageLinks hdr.linkname ++ [⟨hdr, shadowed, []⟩])) }
    else
      let st :=
        if ¬ shadowed then
          { st with
            out := st.out ++ [⟨hdr, content⟩]
            imageShadows := shadowSet st.imageShadows name
              ⟨true, hdr.typeflag ≠ TypeFlag.dir⟩ }
        else st
      if hdr.typeflag ≠ TypeFlag.dir then
        let e : SEntry :=
          ⟨hdr, shadowed, if shadowed ∧ 0 < hdr.size then content else []⟩
        { st with layerEntries := st.layerEntries ++ [e] }
      else st

/-- `imageState.writeHardlinksFor(target, root)`: emit all pending hard
links reachable from `target`, promoting a link to a full entry when the
current content root is shadowed; recursion is bounded by the number of
pending-link map keys, each level deleting its own key (`fuel` dominates
that depth). -/
def writeHardlinksFor (st : ImageState) (target : String) (root : SEntry) :
    Nat → ImageState × SEntry
  | 0 => (st, root)
  | fuel + 1 =>
    let links := linksLookup st.imageLinks target
    let st := { st with imageLinks := linksDelete st.imageLinks target }
    links.foldl
      (fun acc link =>
        let st := acc.1
        let root := acc.2
        let (st, root, link) :=
          if ¬ link.shadowed then
            let (root, link) :=
              if root.shadowed then
                let lh := { link.hdr with
                  typeflag := root.hdr.typeflag
                  linkname := root.hdr.linkname
                  size := root.hdr.size
                  devmajor := root.hdr.devmajor
                  devminor := root.hdr.devminor
                  paxRecords :=
                    if root.hdr.paxRecords ≠ [] then root.hdr.paxRecords
                    else link.hdr.paxRecords }
                let link : SEntry := ⟨lh, link.shadowed, root.b⟩
                (link, link)
              else (root, link)
            let st := { st with out := st.out ++
              [⟨link.hdr, if 0 < link.hdr.size then link.b else []⟩] }
            (st, root, link)
          else (st, root, link)
        writeHardlinksFor st link.hdr.name root fuel)
      (st, root)

/-- `imageState.commitChangeset()`: fold the layer's whiteouts into the
image-wide shadows, then resolve pending hard links against this layer's
entries. -/
def commitChangeset (st : ImageState) : ImageState :=
  let sh := st.layerWhiteouts.foldl
    (fun acc p =>
      let wh : Shadow :=
        { exact := p.2.exact ∨ (shadowLookup acc p.1).exact
          children := p.2.children ∨ (shadowLookup acc p.1).children }
      shadowSet acc p.1 wh)
    st.imageShadows
  let st := { st with imageShadows := sh, layerWhiteouts := [] }
  let st := st.layerEntries.foldl
    (fun st e =>
      (writeHardlinksFor st e.hdr.name e (st.imageLinks.length + 1)).1)
    st
  { st with layerEntries := [] }

/-- One layer of `squash`: stream every entry through
`writeChangesetEntry`, then `commitChangeset`. -/
def squashLayer (st : ImageState) (es : List TarEntry) : ImageState :=
  commitChangeset
    (es.foldl (fun st e => writeChangesetEntry st e.hdr e.content) st)

/-- `squash`: process the selected layers from newest to oldest, returning
the written TAR stream. -/
def squash (layers : List (List TarEntry)) : List TarEntry :=
  (layers.reverse.foldl squashLayer {}).out

end Squash

namespace Tar

/-! ### Canonical AUFS layers for the round-trip property

A tar stream in canonical AUFS form is a concatenation of blocks: ordinary
entries, whiteout files, and opaque directories each immediately followed
by their marker file.  The side conditions below record exactly the
normalisations the translator applies (whiteout files are zero-size
`0600` regular files; a re-created marker inherits its directory's
identity fields); the counterexample for the claim shows that streams
outside this form are not reproduced. -/

/-- One block of a canonical AUFS layer. -/
inductive WhBlock where
  /-- An ordinary entry (any content). -/
  | ord (e : TarEntry)
  /-- A `.wh.<name>` whiteout file. -/
  | wh (h : TarHeader)
  /-- An opaque directory, rendered as the directory entry immediately
  followed by its `.wh..wh..opq` marker. -/
  | opq (d : TarHeader)

/-- The tar entries of a block. -/
def renderBlock : WhBlock → List TarEntry
  | .ord e => [e]
  | .wh h => [⟨h, []⟩]
  | .opq d => [⟨d, []⟩, ⟨opaqueMarkerFor d, []⟩]

/-- The tar stream of a block list. -/
def renderAll (bs : List WhBlock) : List TarEntry :=
  (bs.map renderBlock).flatten

/-- The names of the opaque directories among the blocks. -/
def opqNames (bs : List WhBlock) : List String :=
  bs.filterMap (fun b => match b with | .opq d => some d.name | _ => none)

/-- Canonical-form conditions for one block, relative to the set `O` of
opaque directory names of the whole stream: ordinary entries carry no
whiteout name, no character device and no opaque xattr; whiteout files are
zero-size `0600` regular files with zero device numbers; opaque
directories are trailing-slash directory entries without a pre-existing
opaque xattr. -/
def blockOk (O : List String) : WhBlock → Bool
  | .ord e =>
    !strHasPre aufsWhPre (splitPath e.hdr.name).2 &&
    decide (e.hdr.typeflag ≠ TypeFlag.char) &&
    decide (Sif.annGet e.hdr.paxRecords schilyOpaqueXattr ≠ some "y") &&
    decide (e.hdr.name ∉ O)
  | .wh h =>
    strHasPre aufsWhPre (splitPath h.name).2 &&
    decide ((splitPath h.name).2 ≠ aufsOpaqueMarker) &&
    decide (h.typeflag = TypeFlag.reg) && decide (h.size = 0) &&
    decide (h.mode = 0o600) &&
    decide (h.devmajor = 0) && decide (h.devminor = 0) &&
    decide (h.name ∉ O)
  | .opq d =>
    decide (d.typeflag = TypeFlag.dir) &&
    decide (d.name.data.getLast? = some '/') &&
    decide (Sif.annGet d.paxRecords schilyOpaqueXattr = none) &&
    decide (d.name ∈ O)

/-- The entries the forward (AUFS → OverlayFS) pass emits for one
canonical block: ordinary entries pass through, a whiteout file becomes a
0/0 character device at the target path with no content, and an opaque
directory becomes the directory stamped with the overlay opaque xattr
(its marker is dropped). -/
def fwdBlock : WhBlock → List TarEntry
  | .ord e => [e]
  | .wh h =>
    [⟨{ h with
        name := (splitPath h.name).1 ++ trimPre aufsWhPre (splitPath h.name).2
        typeflag := TypeFlag.char
        devmajor := 0
        devminor := 0 }, []⟩]
  | .opq d =>
    [⟨{ d with
        paxRecords := Sif.annSet d.paxRecords schilyOpaqueXattr "y" }, []⟩]

/-- A block list is canonical when every block satisfies the conditions
against the stream's own opaque-directory names. -/
def canonicalAUFS (bs : List WhBlock) : Bool :=
  bs.all (blockOk (opqNames bs))

end Tar

namespace Mutate

/-! ### Specification-side helpers for stating claims -/

/-- The index adjustment performed by `indexSelected`: negative indices are
relative to the layer count. -/
def adjustIdx (n idx : Int) : Int :=
  if idx < 0 then idx + n else idx

/-- Whether a selector entry is out of range for `n` layers, after
adjustment. -/
def oobIdx (n idx : Int) : Prop :=
  adjustIdx n idx < 0 ∨ n ≤ adjustIdx n idx

instance (n idx : Int) : Decidable (oobIdx n idx) := by
  unfold oobIdx; infer_instance

/-- The effective config value and media type chosen by `populate` before
the standard-type rewrite: the caller's override when present, else the
base's parsed config when the base manifest's config media type is
standard. -/
def effConfig (img : MutImage) : Option ConfigVal × String :=
  match img.configFileOverride with
  | some v => (some v, img.configTypeOverride)
  | none =>
    let t := img.base.manifest.config.mediaType
    (if isConfigMT t then some (.parsed img.base.configFile) else none, t)

/-- Whether a config value is a parsed config file (the Go type assertion
`configFile.(*v1.ConfigFile)` succeeds). -/
def isParsedConfig : Option ConfigVal → Prop
  | some (.parsed _) => True
  | _ => False

instance (v : Option ConfigVal) : Decidable (isParsedConfig v) := by
  unfold isParsedConfig
  rcases v with _ | v
  · infer_instance
  · rcases v with cf | b <;> infer_instance

end Mutate

namespace Squash

/-! ### Concrete corpus inputs (`test/images/gen_images.go`)

The three layers of the `hard-link-delete-4` corpus image: the oldest
layer has a regular file and a hard link to it, the middle layer links to
that link, and the newest layer whites out the middle link's target. -/

/-- Layer 0 of `hard-link-delete-4`: `a/`, `a/b/`, `a/b/foo="foo"`,
`a/b/bar → a/b/foo`. -/
def dl4Layer0 : List Tar.TarEntry :=
  [⟨{ name := "a/", typeflag := .dir }, []⟩,
   ⟨{ name := "a/b/", typeflag := .dir }, []⟩,
   ⟨{ name := "a/b/foo", typeflag := .reg, size := 3 }, [102, 111, 111]⟩,
   ⟨{ name := "a/b/bar", typeflag := .link, linkname := "a/b/foo" }, []⟩]

/-- Layer 1 of `hard-link-delete-4`: `a/`, `a/b/`, `a/b/baz → a/b/bar`. -/
def dl4Layer1 : List Tar.TarEntry :=
  [⟨{ name := "a/", typeflag := .dir }, []⟩,
   ⟨{ name := "a/b/", typeflag := .dir }, []⟩,
   ⟨{ name := "a/b/baz", typeflag := .link, linkname := "a/b/bar" }, []⟩]

/-- Layer 2 of `hard-link-delete-4`: `a/`, `a/b/`, `a/b/.wh.bar`. -/
def dl4Layer2 : List Tar.TarEntry :=
  [⟨{ name := "a/", typeflag := .dir }, []⟩,
   ⟨{ name := "a/b/", typeflag := .dir }, []⟩,
   ⟨{ name := "a/b/.wh.bar", typeflag := .reg }, []⟩]

end Squash

namespace Mutate

/-- A throwaway concrete layer for witnesses. -/
def sampleLayer : LayerM :=
  { desc := { mediaType := "application/vnd.oci.image.layer.v1.tar+gzip",
              digest := 11, size := 4 },
    diffID := 21 }

end Mutate

namespace Mutate

/-- A concrete one-layer base image for counterexamples and witnesses. -/
def cexBase : BaseImage :=
  { manifest :=
      { mediaType := "application/vnd.oci.image.manifest.v1+json"
        config := { mediaType := "application/vnd.oci.image.config.v1+json",
                    digest := 3, size := 2 }
        layers := [sampleLayer.desc] }
    layers := [sampleLayer]
    configFile := { rootfsDiffIDs := [21], history := [] }
    rawConfigFile := [1, 2] }

/-- The builder state `Apply` produces from `cexBase` and a `SetConfig`
mutation carrying a parsed config under a non-standard media type. -/
def cexImgNonStd : MutImage :=
  { base := cexBase
    overrides := [none]
    configFileOverride := some (.parsed { rootfsDiffIDs := [99], history := [] })
    configTypeOverride := "application/x-custom" }

/-- The builder state `Apply` produces from `cexBase` and a `SetConfig`
mutation carrying raw bytes under a standard config media type. -/
def cexImgStdRaw : MutImage :=
  { base := cexBase
    overrides := [none]
    configFileOverride := some (.raw [7])
    configTypeOverride := "application/vnd.oci.image.config.v1+json" }

/-- The builder state `Apply` produces from `cexBase` and a `SetHistory`
mutation (no config override). -/
def cexImgHistory : MutImage :=
  { base := cexBase
    overrides := [none]
    history := some "h1" }

end Mutate

namespace Tar

/-- A concrete canonical opaque directory. -/
def sampleOpaqueDir : TarHeader :=
  { name := "dir/", typeflag := .dir, uid := 5, accessTime := 9 }

/-- A concrete canonical block list: an opaque directory with its marker,
an ordinary file, and a whiteout file. -/
def sampleCanonicalBlocks : List WhBlock :=
  [.opq sampleOpaqueDir,
   .ord ⟨{ name := "dir/f", typeflag := .reg, size := 2, mode := 420 },
     [7, 8]⟩,
   .wh { name := "dir/.wh.g", typeflag := .reg, mode := 0o600 }]

end Tar

namespace Mutate

/-! ## Theorems -/

/-- C9: `SetLayer` rejects only indices at or above the override count with
the invalid-layer-index error; a negative index passes that check and
reaches the out-of-bounds slice write (a runtime panic), instead of
returning the error. -/
theorem setLayer_negative_index_panics (i : Int) (l : LayerM)
    (ov : List (Option LayerM)) :
    ((ov.length : Int) ≤ i → setLayer i l ov = .err .invalidLayerIndex) ∧
    (i < 0 → setLayer i l ov = .panic) := by
  constructor
  · intro h
    simp [setLayer, h]
  · intro h
    have h2 : ¬ i ≥ (ov.length : Int) := by omega
    simp [setLayer, h2, h]

/-- Witness for `setLayer_negative_index_panics` at concrete inputs. -/
theorem setLayer_negative_index_panics_witness :
    setLayer 2 sampleLayer [none] = .err .invalidLayerIndex ∧
    setLayer (-1) sampleLayer [none] = .panic :=
  ⟨(setLayer_negative_index_panics 2 sampleLayer [none]).1 (by decide),
   (setLayer_negative_index_panics (-1) sampleLayer [none]).2 (by decide)⟩

/-- The only error `indexSelectedGo` produces is the out-of-range error. -/
lemma indexSelectedGo_error_val {i n : Int} {l : List Int} {e : MutErr}
    (h : indexSelectedGo i n l = .error e) : e = .layerIndexOutOfRange := by
  induction l with
  | nil => simp [indexSelectedGo] at h
  | cons x rest ih =>
    rw [indexSelectedGo] at h
    by_cases h1 : (if x < 0 then x + n else x) < 0 ∨
        n ≤ (if x < 0 then x + n else x)
    · rw [if_pos h1] at h
      cases h
      rfl
    · rw [if_neg h1] at h
      by_cases h2 : (if x < 0 then x + n else x) = i
      · rw [if_pos h2] at h
        cases h
      · rw [if_neg h2] at h
        exact ih h

/-- Scanning for `i` errors when an out-of-range entry is reached before
any entry matching `i`. -/
lemma indexSelectedGo_error_of (i n : Int) (pre post : List Int) (idx : Int)
    (hidx : oobIdx n idx)
    (hpre : ∀ x ∈ pre, ¬ oobIdx n x ∧ adjustIdx n x ≠ i) :
    indexSelectedGo i n (pre ++ idx :: post) = .error .layerIndexOutOfRange := by
  induction pre with
  | nil =>
    rw [List.nil_append, indexSelectedGo]
    have : (if idx < 0 then idx + n else idx) < 0 ∨
        n ≤ (if idx < 0 then idx + n else idx) := hidx
    simp [this]
  | cons x rest ih =>
    obtain ⟨hoob, hne⟩ := hpre x (List.mem_cons_self x rest)
    rw [List.cons_append, indexSelectedGo]
    have h1 : ¬ ((if x < 0 then x + n else x) < 0 ∨
        n ≤ (if x < 0 then x + n else x)) := hoob
    have h2 : ¬ ((if x < 0 then x + n else x) = i) := hne
    simp only [h1, if_false, h2]
    exact ih (fun y hy => hpre y (List.mem_cons_of_mem x hy))

/-- If scanning the selector errors at some queried position, the whole
expansion errors. -/
lemma layersSelectedGo_error_of {α : Type} (s : Option (List Int)) (n : Int)
    (ls : List α) (start : Int)
    (h : ∃ k : Nat, k < ls.length ∧
      indexSelected s (start + k) n = .error .layerIndexOutOfRange) :
    layersSelectedGo s n start ls = .error .layerIndexOutOfRange := by
  induction ls generalizing start with
  | nil =>
    obtain ⟨k, hk, _⟩ := h
    simp at hk
  | cons l rest ih =>
    obtain ⟨k, hk, herr⟩ := h
    rw [layersSelectedGo]
    match hhead : indexSelected s start n with
    | .error e =>
      have : s ≠ none := by
        intro hs; rw [hs] at hhead; simp [indexSelected] at hhead
      obtain ⟨lsel, rfl⟩ : ∃ lsel, s = some lsel := by
        cases s with
        | none => exact absurd rfl this
        | some lsel => exact ⟨lsel, rfl⟩
      have := indexSelectedGo_error_val (i := start) (n := n) (l := lsel)
        (by simpa [indexSelected] using hhead)
      subst this
      simp [hhead]
    | .ok b =>
      have hk0 : k ≠ 0 := by
        intro h0
        subst h0
        simp only [Nat.cast_zero, add_zero] at herr
        rw [herr] at hhead
        cases hhead
      obtain ⟨k', rfl⟩ : ∃ k', k = k' + 1 :=
        ⟨k - 1, by omega⟩
      have htail : layersSelectedGo s n (start + 1) rest =
          .error .layerIndexOutOfRange := by
        apply ih
        refine ⟨k', by simpa using hk, ?_⟩
        have : start + 1 + (k' : Int) = start + ((k' : Nat) + 1 : Nat) := by
          push_cast; ring
        rw [this]
        exact herr
      simp [hhead, htail]

/-- Expansion with a non-nil empty selector selects nothing. -/
lemma layersSelectedGo_empty {α : Type} (n : Int) (ls : List α) (start : Int) :
    layersSelectedGo (some []) n start ls = .ok [] := by
  induction ls generalizing start with
  | nil => rfl
  | cons l rest ih =>
    rw [layersSelectedGo]
    simp [indexSelected, indexSelectedGo, ih]

/-- C7 (counterexample): the selector `[0, 100]` contains the out-of-range
index `100` for a one-layer image, yet expanding the selection succeeds,
silently ignoring the out-of-range entry (the scan for layer `0` matches
before reaching it). -/
theorem layersSelected_oob_silently_ignored :
    layersSelected (some [0, 100]) [(5 : Nat)] = .ok [5] ∧
    oobIdx ([(5 : Nat)].length : Int) 100 := by
  constructor
  · rfl
  · unfold oobIdx adjustIdx
    decide

/-- C7 (amended): a range selector with `start ≥ end` selects no layers;
and expanding a selection errors with the layer-index-out-of-range error
whenever the selector scan for some existing layer position reaches an
out-of-range entry before any match — in particular whenever an
out-of-range entry precedes all matches for that position. -/
theorem rangeSelector_empty_and_oob_errors :
    (∀ (s e : Int) (ls : List Nat), e ≤ s →
      layersSelected (rangeLayerSelector s e) ls = .ok []) ∧
    (∀ (pre post : List Int) (idx : Int) (ls : List Nat) (i : Nat),
      i < ls.length →
      oobIdx (ls.length : Int) idx →
      (∀ x ∈ pre, ¬ oobIdx (ls.length : Int) x ∧
        adjustIdx (ls.length : Int) x ≠ (i : Int)) →
      layersSelected (some (pre ++ idx :: post)) ls =
        .error .layerIndexOutOfRange) := by
  constructor
  · intro s e ls h
    have : rangeLayerSelector s e = some [] := by
      unfold rangeLayerSelector
      rw [if_pos (by omega)]
    rw [this]
    unfold layersSelected
    exact layersSelectedGo_empty _ _ _
  · intro pre post idx ls i hi hoob hpre
    unfold layersSelected
    apply layersSelectedGo_error_of
    refine ⟨i, hi, ?_⟩
    simp only [indexSelected, zero_add]
    exact indexSelectedGo_error_of (i : Int) (ls.length : Int) pre post idx
      hoob hpre

/-- Witness for `rangeSelector_empty_and_oob_errors` at concrete inputs. -/
theorem rangeSelector_empty_and_oob_errors_witness :
    layersSelected (rangeLayerSelector 3 3) [(1 : Nat), 2] = .ok [] ∧
    layersSelected (some ([] ++ (5 : Int) :: [0])) [(1 : Nat), 2] =
      .error .layerIndexOutOfRange :=
  ⟨(rangeSelector_empty_and_oob_errors).1 3 3 [1, 2] (by decide),
   (rangeSelector_empty_and_oob_errors).2 [] [0] 5 [1, 2] 0 (by decide)
     (by unfold oobIdx adjustIdx; decide)
     (by intro x hx; cases hx)⟩

end Mutate

namespace Tar

/-- Membership in the opaque-path set after a Go map insert. -/
lemma opqInsert_mem (m : List String) (k p : String) :
    p ∈ opqInsert m k ↔ p ∈ m ∨ p = k := by
  unfold opqInsert
  by_cases h : k ∈ m
  · rw [if_pos h]
    constructor
    · exact Or.inl
    · rintro (hp | rfl)
      · exact hp
      · exact h
  · rw [if_neg h]
    simp

/-- The scan step does not change the recorded opaque set except for a
marker entry's parent. -/
lemma scanStep_fst (acc : List String × Bool) (e : TarEntry) :
    (scanStep acc e).1 =
      if (splitPath e.hdr.name).2 = aufsOpaqueMarker then
        opqInsert acc.1 (splitPath e.hdr.name).1
      else acc.1 := by
  unfold scanStep
  by_cases h : (splitPath e.hdr.name).2 = aufsOpaqueMarker <;>
    simp only [h, if_true, if_false] <;> split <;> rfl

/-- The scan step's whiteout flag is the old flag or the whiteout test for
this entry. -/
lemma scanStep_snd (acc : List String × Bool) (e : TarEntry) :
    (scanStep acc e).2 =
      (acc.2 || strHasPre aufsWhPre (splitPath e.hdr.name).2) := by
  unfold scanStep
  rcases acc with ⟨m, fw⟩
  dsimp only
  by_cases h : (splitPath e.hdr.name).2 = aufsOpaqueMarker
  · rw [if_pos h]
    cases hb : strHasPre aufsWhPre (splitPath e.hdr.name).2 <;>
      cases fw <;> simp [hb]
  · rw [if_neg h]
    cases hb : strHasPre aufsWhPre (splitPath e.hdr.name).2 <;>
      cases fw <;> simp [hb]

/-- Membership in the scanned opaque set, relative to the accumulator. -/
lemma scan_foldl_fst (es : List TarEntry) (acc : List String × Bool)
    (p : String) :
    p ∈ (es.foldl scanStep acc).1 ↔
      p ∈ acc.1 ∨ ∃ e ∈ es, (splitPath e.hdr.name).2 = aufsOpaqueMarker ∧
        (splitPath e.hdr.name).1 = p := by
  induction es generalizing acc with
  | nil => simp
  | cons e rest ih =>
    rw [List.foldl_cons, ih]
    rw [scanStep_fst]
    by_cases h : (splitPath e.hdr.name).2 = aufsOpaqueMarker
    · rw [if_pos h, opqInsert_mem]
      constructor
      · rintro ((hp | rfl) | ⟨e', he', hm, hp⟩)
        · exact Or.inl hp
        · exact Or.inr ⟨e, List.mem_cons_self e rest, h, rfl⟩
        · exact Or.inr ⟨e', List.mem_cons_of_mem e he', hm, hp⟩
      · rintro (hp | ⟨e', he', hm, hp⟩)
        · exact Or.inl (Or.inl hp)
        · rcases List.mem_cons.mp he' with rfl | he'
          · exact Or.inl (Or.inr hp.symm)
          · exact Or.inr ⟨e', he', hm, hp⟩
    · rw [if_neg h]
      constructor
      · rintro (hp | ⟨e', he', hm, hp⟩)
        · exact Or.inl hp
        · exact Or.inr ⟨e', List.mem_cons_of_mem e he', hm, hp⟩
      · rintro (hp | ⟨e', he', hm, hp⟩)
        · exact Or.inl hp
        · rcases List.mem_cons.mp he' with rfl | he'
          · exact absurd hm h
          · exact Or.inr ⟨e', he', hm, hp⟩

/-- The scanned whiteout flag, relative to the accumulator. -/
lemma scan_foldl_snd (es : List TarEntry) (acc : List String × Bool) :
    (es.foldl scanStep acc).2 =
      (acc.2 || es.any (fun e => strHasPre aufsWhPre (splitPath e.hdr.name).2)) := by
  induction es generalizing acc with
  | nil => simp
  | cons e rest ih =>
    rw [List.foldl_cons, ih, scanStep_snd]
    simp [Bool.or_assoc]

/-- C5 (counterexample): a stream whose only entry is an opaque marker.
The scan reports `has_file_whiteout = true` — the marker's base name
starts with `.wh.` and the source performs no marker exclusion — although
no entry has a base name that both starts with `.wh.` and differs from
`.wh..wh..opq`, so the claimed "iff" fails on this input. -/
theorem scanAUFSWhiteouts_marker_only_counterexample :
    (scanAUFSWhiteouts
      [⟨{ name := "d/.wh..wh..opq", typeflag := TypeFlag.reg }, []⟩]).2 = true ∧
    ¬ ∃ e ∈ [(⟨{ name := "d/.wh..wh..opq", typeflag := TypeFlag.reg }, []⟩ :
        TarEntry)], strHasPre aufsWhPre (splitPath e.hdr.name).2 = true ∧
        (splitPath e.hdr.name).2 ≠ aufsOpaqueMarker := by
  constructor
  · rfl
  · rintro ⟨e, he, -, hm⟩
    simp only [List.mem_singleton] at he
    subst he
    exact hm (by decide)

/-- C5 (amended): the scan returns exactly the set of parent directories of
entries whose base name equals `.wh..wh..opq`, and reports a file whiteout
iff some entry's base name starts with `.wh.` — including the opaque
marker itself, which the source does not exclude. -/
theorem scanAUFSWhiteouts_characterisation (es : List TarEntry) :
    (∀ p, p ∈ (scanAUFSWhiteouts es).1 ↔
      ∃ e ∈ es, (splitPath e.hdr.name).2 = aufsOpaqueMarker ∧
        (splitPath e.hdr.name).1 = p) ∧
    ((scanAUFSWhiteouts es).2 = true ↔
      ∃ e ∈ es, strHasPre aufsWhPre (splitPath e.hdr.name).2 = true) := by
  constructor
  · intro p
    rw [scanAUFSWhiteouts, scan_foldl_fst]
    simp
  · rw [scanAUFSWhiteouts, scan_foldl_snd]
    simp [List.any_eq_true]

end Tar

namespace Squash

/-- C4: evaluating the squash engine on the `hard-link-delete-4` stack.
The output contains `a/b/foo` and no entry named `a/b/bar`, but `a/b/baz`
is emitted as a hard link whose linkname is still `a/b/bar` — a dangling
link — rather than being re-rooted onto the surviving `a/b/foo` as the
specification, the claim, and the corpus generator's own comment
(`a/b/baz => a/b/foo`) require. -/
theorem squash_hardLinkDelete4_dangling_link :
    (squash [dl4Layer0, dl4Layer1, dl4Layer2]).map
      (fun e => (e.hdr.name, e.hdr.typeflag, e.hdr.linkname)) =
      [("a/", Tar.TypeFlag.dir, ""), ("a/b/", Tar.TypeFlag.dir, ""),
       ("a/b/foo", Tar.TypeFlag.reg, ""),
       ("a/b/baz", Tar.TypeFlag.link, "a/b/bar")] ∧
    ∀ e ∈ squash [dl4Layer0, dl4Layer1, dl4Layer2],
      e.hdr.name ≠ "a/b/bar" := by
  constructor
  · rfl
  · decide

end Squash

namespace Sif

/-- C10: when more than one existing root-index entry carries the same
reference annotation value, `append` fails with the
multiple-ref-names error and the SIF state is returned untouched (the
source errors out before any file mutation). -/
theorem append_multipleRefNames_unchanged (st : AppendState)
    (add : IndexEntry) (name : String) (newBlobs : List Digest)
    (h : 2 ≤ (st.root.filter (matchesRef name)).length) :
    appendOp st add (some name) newBlobs = .err st .multipleRefNames := by
  have hrem : removeRefAnnot st.root st.blobs name =
      .err .multipleRefNames := by
    unfold removeRefAnnot
    rw [if_pos (by omega)]
  unfold appendOp appendRootIndex
  dsimp only
  rw [hrem]

/-- Witness for `append_multipleRefNames_unchanged` at a concrete state
with two entries annotated with the same reference. -/
theorem append_multipleRefNames_unchanged_witness :
    appendOp
      ⟨[{ mediaType := "application/vnd.oci.image.manifest.v1+json",
          digest := 1, size := 3,
          annotations := some [(refAnnot, "r:latest")] },
        { mediaType := "application/vnd.oci.image.manifest.v1+json",
          digest := 2, size := 3,
          annotations := some [(refAnnot, "r:latest")] }], [1, 2]⟩
      { mediaType := "application/vnd.oci.image.manifest.v1+json",
        digest := 9, size := 3 }
      (some "r:latest") [9] =
    .err
      ⟨[{ mediaType := "application/vnd.oci.image.manifest.v1+json",
          digest := 1, size := 3,
          annotations := some [(refAnnot, "r:latest")] },
        { mediaType := "application/vnd.oci.image.manifest.v1+json",
          digest := 2, size := 3,
          annotations := some [(refAnnot, "r:latest")] }], [1, 2]⟩
      .multipleRefNames :=
  append_multipleRefNames_unchanged _ _ _ _ (by decide)

/-- C8 (counterexample): a root with exactly one entry annotated
`org.opencontainers.image.ref.name = "r:latest"` and no other
annotations.  After `append` with the same reference, the re-added entry
carries a new `vnd.sylabs.image.prev.ref.name` annotation — so more than
"only that annotation removed" happens to the existing entry's
descriptor. -/
theorem append_adds_prevRef_counterexample :
    appendRootIndex
      [{ mediaType := "application/vnd.oci.image.manifest.v1+json",
         digest := 1, size := 3,
         annotations := some [(refAnnot, "r:latest")] }] [1]
      { mediaType := "application/vnd.oci.image.manifest.v1+json",
        digest := 9, size := 3 }
      (some "r:latest") =
      .ok [{ mediaType := "application/vnd.oci.image.manifest.v1+json",
             digest := 1, size := 3,
             annotations := some [(prevRefAnnot, "r:latest")] },
           { mediaType := "application/vnd.oci.image.manifest.v1+json",
             digest := 9, size := 3,
             annotations := some [(refAnnot, "r:latest")] }] ∧
    (prevRefAnnot, "r:latest") ∉
      annDelete [(refAnnot, "r:latest")] refAnnot := by
  constructor
  · rfl
  · decide

/-- C8 (amended): with exactly one existing entry matching the supplied
reference annotation, an image or index media type on that entry, no
earlier root-index entry sharing its digest (so the digest-based
retrieval `ii.Image` / `ii.ImageIndex` finds the matched entry itself)
and its manifest blob stored, `append` removes that entry, re-appends its
manifest under the same digest, size and media type with the reference
annotation deleted and a `vnd.sylabs.image.prev.ref.name` annotation
recording the old reference, and finally appends the new entry annotated
with the reference; all other entries are untouched. -/
theorem append_single_ref_strips_and_adds_prevRef
    (pre post : List IndexEntry) (blobs : List Digest)
    (e add : IndexEntry) (name : String)
    (h1 : matchesRef name e = true)
    (h2 : ∀ x ∈ pre, matchesRef name x = false)
    (h3 : ∀ x ∈ post, matchesRef name x = false)
    (h4 : isImageMT e.mediaType = true ∨ isIndexMT e.mediaType = true)
    (h5 : ∀ x ∈ pre, x.digest ≠ e.digest)
    (h6 : e.digest ∈ blobs) :
    appendRootIndex (pre ++ e :: post) blobs add (some name) =
      .ok ((pre ++ post) ++
        [{ mediaType := e.mediaType, digest := e.digest, size := e.size,
           annotations := some
             (annSet (annDelete (annsOf e.annotations) refAnnot)
               prevRefAnnot name) }] ++
        [{ add with
           annotations := some
             (annSet (annsOf add.annotations) refAnnot name) }]) := by
  obtain ⟨anns, hann⟩ : ∃ l, e.annotations = some l := by
    cases he : e.annotations with
    | none =>
      exfalso
      rw [matchesRef, he] at h1
      simp [annsOf, annGet] at h1
    | some l => exact ⟨l, rfl⟩
  have hfilter : (pre ++ e :: post).filter (matchesRef name) = [e] := by
    rw [List.filter_append, List.filter_cons]
    rw [List.filter_eq_nil_iff.mpr (fun x hx => by simp [h2 x hx])]
    rw [List.filter_eq_nil_iff.mpr (fun x hx => by simp [h3 x hx])]
    simp [h1]
  have hneg : (pre ++ e :: post).filter (fun x => ¬ matchesRef name x) =
      pre ++ post := by
    rw [List.filter_append, List.filter_cons]
    have hp : pre.filter (fun x => ¬ matchesRef name x) = pre :=
      List.filter_eq_self.mpr (fun x hx => by simp [h2 x hx])
    have hq : post.filter (fun x => ¬ matchesRef name x) = post :=
      List.filter_eq_self.mpr (fun x hx => by simp [h3 x hx])
    rw [hp, hq]
    simp [h1]
  have hfind : findDescriptor (pre ++ e :: post) e.digest = .ok e := by
    unfold findDescriptor
    have key : ∀ (l : List IndexEntry),
        (∀ x ∈ l, x.digest ≠ e.digest) →
        (l ++ e :: post).find? (fun d => d.digest = e.digest) = some e := by
      intro l
      induction l with
      | nil =>
        intro _
        simp [List.find?_cons]
      | cons a t ih =>
        intro hl
        have ha : (decide (a.digest = e.digest)) = false := by
          simpa using hl a (List.mem_cons_self _ _)
        rw [List.cons_append, List.find?_cons, ha]
        exact ih (fun x hx => hl x (List.mem_cons_of_mem _ hx))
    rw [key pre h5]
  have hretr :
      (if isImageMT e.mediaType then
        indexGetImage (pre ++ e :: post) blobs e.digest
      else if isIndexMT e.mediaType then
        indexGetImageIndex (pre ++ e :: post) blobs e.digest
      else .error .unexpectedMediaType) = .ok e := by
    cases himg : isImageMT e.mediaType with
    | true =>
      rw [if_pos rfl]
      unfold indexGetImage
      rw [hfind]
      dsimp only
      rw [if_pos himg, if_pos h6]
    | false =>
      have hidx : isIndexMT e.mediaType = true := by
        rcases h4 with h | h
        · rw [himg] at h
          cases h
        · exact h
      rw [if_neg (by simp), if_pos hidx]
      unfold indexGetImageIndex
      rw [hfind]
      dsimp only
      rw [if_pos hidx, if_pos h6]
  have hrem : removeRefAnnot (pre ++ e :: post) blobs name =
      .ok ((pre ++ post) ++
        [{ mediaType := e.mediaType, digest := e.digest, size := e.size,
           annotations := some
             (annSet (annDelete (annsOf e.annotations) refAnnot)
               prevRefAnnot name) }]) := by
    unfold removeRefAnnot
    rw [hfilter]
    simp only [List.length_singleton]
    rw [if_neg (by omega)]
    rw [hretr]
    dsimp only
    rw [hann]
    dsimp only [annsOf, Option.getD_some]
    rw [hneg]
  unfold appendRootIndex
  dsimp only
  rw [hrem]

/-- Witness for `append_single_ref_strips_and_adds_prevRef` at a concrete
one-entry root whose manifest blob is stored. -/
theorem append_single_ref_strips_and_adds_prevRef_witness :
    appendRootIndex
      [{ mediaType := "application/vnd.oci.image.manifest.v1+json",
         digest := 1, size := 3,
         annotations := some [(refAnnot, "r:latest"), ("k", "v")] }] [1]
      { mediaType := "application/vnd.oci.image.manifest.v1+json",
        digest := 9, size := 3 }
      (some "r:latest") =
      .ok [{ mediaType := "application/vnd.oci.image.manifest.v1+json",
             digest := 1, size := 3,
             annotations := some [("k", "v"), (prevRefAnnot, "r:latest")] },
           { mediaType := "application/vnd.oci.image.manifest.v1+json",
             digest := 9, size := 3,
             annotations := some [(refAnnot, "r:latest")] }] := by
  have := append_single_ref_strips_and_adds_prevRef
    [] [] [1]
    { mediaType := "application/vnd.oci.image.manifest.v1+json",
      digest := 1, size := 3,
      annotations := some [(refAnnot, "r:latest"), ("k", "v")] }
    { mediaType := "application/vnd.oci.image.manifest.v1+json",
      digest := 9, size := 3 }
    "r:latest" (by decide) (by intro x hx; cases hx) (by intro x hx; cases hx)
    (by left; decide) (by intro x hx; cases hx) (by decide)
  simpa using this

end Sif

namespace Mutate

/-- C2 (counterexample): `Apply` accepts a `SetConfig` mutation carrying a
parsed config under a non-standard media type; the materialised config
file is then emitted verbatim, so its `rootfs.diff_ids` (`[99]`) differs
from the effective layers' diff-ids (`[21]`). -/
theorem nonstandard_config_diffIDs_counterexample :
    Apply cexBase
      [.setConfig (some (.parsed { rootfsDiffIDs := [99], history := [] }))
        "application/x-custom"] = .ok (some cexImgNonStd) ∧
    imageConfigFile cexImgNonStd = .ok { rootfsDiffIDs := [99], history := [] } ∧
    effectiveLayers cexImgNonStd = .ok [sampleLayer] ∧
    [99] ≠ [sampleLayer].map (·.diffID) := by
  refine ⟨rfl, rfl, rfl, ?_⟩
  decide

/-- C2 (amended): whenever `populate` succeeds, the manifest's layer
descriptors are exactly the effective layers' descriptors in order and the
computed diff-ids are the effective layers' diff-ids in order; and
whenever the resulting config media type is a standard config type, the
stored config file is a parsed config whose `rootfs.diff_ids` equals the
effective layers' diff-ids in order. -/
theorem populate_std_config_diffIDs_consistency (img : MutImage)
    (p : Populated) (eff : List LayerM)
    (h2 : effectiveLayers img = .ok eff)
    (h1 : populate img = .ok p) :
    p.manifest.layers = eff.map (·.desc) ∧
    p.diffIDs = eff.map (·.diffID) ∧
    (isConfigMT p.manifest.config.mediaType = true →
      ∃ cf, p.configFile = some (.parsed cf) ∧
        cf.rootfsDiffIDs = eff.map (·.diffID)) := by
  unfold effectiveLayers at h2
  unfold populate at h1
  rw [h2] at h1
  dsimp only at h1
  cases hov : img.configFileOverride with
  | some v =>
    rw [hov] at h1
    dsimp only at h1
    by_cases hc : isConfigMT img.configTypeOverride = true
    · rw [if_pos hc] at h1
      cases v with
      | parsed cf =>
        cases hh : img.history with
        | some h =>
          rw [hh] at h1
          dsimp only at h1
          cases h1
          refine ⟨rfl, rfl, fun _ => ⟨_, rfl, rfl⟩⟩
        | none =>
          rw [hh] at h1
          dsimp only at h1
          cases h1
          refine ⟨rfl, rfl, fun _ => ⟨_, rfl, rfl⟩⟩
      | raw b =>
        dsimp only at h1
        cases h1
    · rw [if_neg hc] at h1
      dsimp only at h1
      cases h1
      refine ⟨rfl, rfl, fun hmem => absurd hmem hc⟩
  | none =>
    rw [hov] at h1
    dsimp only at h1
    by_cases hc : isConfigMT img.base.manifest.config.mediaType = true
    · rw [if_pos hc] at h1
      dsimp only at h1
      rw [if_pos hc] at h1
      cases hh : img.history with
      | some h =>
        rw [hh] at h1
        dsimp only at h1
        cases h1
        refine ⟨rfl, rfl, fun _ => ⟨_, rfl, rfl⟩⟩
      | none =>
        rw [hh] at h1
        dsimp only at h1
        cases h1
        refine ⟨rfl, rfl, fun _ => ⟨_, rfl, rfl⟩⟩
    · rw [if_neg hc] at h1
      dsimp only at h1
      rw [if_neg hc] at h1
      dsimp only at h1
      cases h1
      refine ⟨rfl, rfl, fun hmem => absurd hmem hc⟩

/-- Witness for `populate_std_config_diffIDs_consistency`: the history
mutation on the concrete base. -/
theorem populate_std_config_diffIDs_consistency_witness :
    ({ diffIDs := [21]
       manifest :=
         { mediaType := "application/vnd.oci.image.manifest.v1+json"
           config := { mediaType := "application/vnd.oci.image.config.v1+json",
                       digest := 7411, size := 2 }
           layers := [sampleLayer.desc] }
       configFile := some (.parsed { rootfsDiffIDs := [21], history := ["h1"] })
       rawConfigFile := [21, 1] } : Populated).manifest.layers =
        [sampleLayer].map (·.desc) ∧
    (isConfigMT "application/vnd.oci.image.config.v1+json" = true →
      ∃ cf, (some (ConfigVal.parsed { rootfsDiffIDs := [21], history := ["h1"] }) :
          Option ConfigVal) = some (.parsed cf) ∧
        cf.rootfsDiffIDs = [sampleLayer].map (·.diffID)) := by
  have h := populate_std_config_diffIDs_consistency cexImgHistory
    { diffIDs := [21]
      manifest :=
        { mediaType := "application/vnd.oci.image.manifest.v1+json"
          config := { mediaType := "application/vnd.oci.image.config.v1+json",
                      digest := 7411, size := 2 }
          layers := [sampleLayer.desc] }
      configFile := some (.parsed { rootfsDiffIDs := [21], history := ["h1"] })
      rawConfigFile := [21, 1] }
    [sampleLayer] rfl rfl
  exact ⟨h.1, h.2.2⟩

/-- C6 (counterexample): a caller-supplied raw (non-parsed) config value
combined with a *standard* config media type makes materialisation fail
with the "unexpected config file type" error — a combination the claim
says must not raise it (the claim predicts the error only for
*non-standard* media types). -/
theorem standard_config_raw_value_errors_counterexample :
    Apply cexBase
      [.setConfig (some (.raw [7])) "application/vnd.oci.image.config.v1+json"]
      = .ok (some cexImgStdRaw) ∧
    populate cexImgStdRaw = .err .unexpectedConfigFileType ∧
    isConfigMT "application/vnd.oci.image.config.v1+json" = true := by
  exact ⟨rfl, rfl, rfl⟩

/-- C6 (amended): when the layer loop does not panic, materialisation
fails with the "unexpected config file type" error exactly when the
effective config media type is a *standard* config type and the effective
config value is not a parsed config file. -/
theorem populate_configError_iff (img : MutImage) (eff : List LayerM)
    (h : effectiveLayers img = .ok eff) :
    (populate img = .err .unexpectedConfigFileType ↔
      isConfigMT (effConfig img).2 = true ∧
        ¬ isParsedConfig (effConfig img).1) := by
  unfold effectiveLayers at h
  unfold populate effConfig
  rw [h]
  dsimp only
  cases hov : img.configFileOverride with
  | some v =>
    dsimp only
    by_cases hc : isConfigMT img.configTypeOverride = true
    · rw [if_pos hc]
      cases v with
      | parsed cf =>
        cases hh : img.history with
        | some h' =>
          dsimp only
          constructor
          · intro hcontra
            cases hcontra
          · rintro ⟨-, hnp⟩
            exact absurd trivial hnp
        | none =>
          dsimp only
          constructor
          · intro hcontra
            cases hcontra
          · rintro ⟨-, hnp⟩
            exact absurd trivial hnp
      | raw b =>
        dsimp only
        constructor
        · intro _
          exact ⟨hc, fun hp => hp⟩
        · intro _
          rfl
    · rw [if_neg hc]
      dsimp only
      constructor
      · intro hcontra
        cases hcontra
      · rintro ⟨hmem, -⟩
        exact absurd hmem hc
  | none =>
    dsimp only
    by_cases hc : isConfigMT img.base.manifest.config.mediaType = true
    · rw [if_pos hc]
      dsimp only
      rw [if_pos hc]
      cases hh : img.history with
      | some h' =>
        dsimp only
        constructor
        · intro hcontra
          cases hcontra
        · rintro ⟨-, hnp⟩
          exact absurd (by rw [if_pos hc]; exact trivial) hnp
      | none =>
        dsimp only
        constructor
        · intro hcontra
          cases hcontra
        · rintro ⟨-, hnp⟩
          exact absurd (by rw [if_pos hc]; exact trivial) hnp
    · rw [if_neg hc]
      dsimp only
      rw [if_neg hc]
      dsimp only
      constructor
      · intro hcontra
        cases hcontra
      · rintro ⟨hmem, -⟩
        exact absurd hmem hc

/-- Witness for `populate_configError_iff`: the standard-type raw-value
image errors. -/
theorem populate_configError_iff_witness :
    populate cexImgStdRaw = .err .unexpectedConfigFileType :=
  (populate_configError_iff cexImgStdRaw [sampleLayer] rfl).mpr
    ⟨rfl, by decide⟩

end Mutate

namespace Sif

/-- Membership through one caching decision. -/
lemma cacheStep_mem (skip : List Digest) (acc : List Digest × List Digest)
    (d h : Digest) :
    (h ∈ (cacheStep skip acc d).1 ↔ h ∈ acc.1 ∨ (h = d ∧ d ∉ skip)) ∧
    (h ∈ (cacheStep skip acc d).2 ↔ h ∈ acc.2 ∨ (h = d ∧ d ∈ skip)) := by
  unfold cacheStep
  by_cases hs : d ∈ skip
  · rw [if_pos hs]
    constructor
    · simp [hs]
    · simp [hs]
  · rw [if_neg hs]
    constructor
    · simp [hs]
    · simp [hs]

/-- Membership through the caching fold over a digest list. -/
lemma cacheFold_mem (skip : List Digest) (ds : List Digest)
    (acc : List Digest × List Digest) (h : Digest) :
    (h ∈ (ds.foldl (cacheStep skip) acc).1 ↔
      h ∈ acc.1 ∨ (h ∈ ds ∧ h ∉ skip)) ∧
    (h ∈ (ds.foldl (cacheStep skip) acc).2 ↔
      h ∈ acc.2 ∨ (h ∈ ds ∧ h ∈ skip)) := by
  induction ds generalizing acc with
  | nil => simp
  | cons d rest ih =>
    rw [List.foldl_cons]
    constructor
    · rw [(ih (cacheStep skip acc d)).1, (cacheStep_mem skip acc d h).1]
      constructor
      · rintro ((ha | ⟨rfl, hd⟩) | ⟨hr, hs⟩)
        · exact Or.inl ha
        · exact Or.inr ⟨List.mem_cons_self _ _, hd⟩
        · exact Or.inr ⟨List.mem_cons_of_mem d hr, hs⟩
      · rintro (ha | ⟨hmem, hs⟩)
        · exact Or.inl (Or.inl ha)
        · rcases List.mem_cons.mp hmem with rfl | hr
          · exact Or.inl (Or.inr ⟨rfl, hs⟩)
          · exact Or.inr ⟨hr, hs⟩
    · rw [(ih (cacheStep skip acc d)).2, (cacheStep_mem skip acc d h).2]
      constructor
      · rintro ((ha | ⟨rfl, hd⟩) | ⟨hr, hs⟩)
        · exact Or.inl ha
        · exact Or.inr ⟨List.mem_cons_self _ _, hd⟩
        · exact Or.inr ⟨List.mem_cons_of_mem d hr, hs⟩
      · rintro (ha | ⟨hmem, hs⟩)
        · exact Or.inl (Or.inl ha)
        · rcases List.mem_cons.mp hmem with rfl | hr
          · exact Or.inl (Or.inr ⟨rfl, hs⟩)
          · exact Or.inr ⟨hr, hs⟩

/-- Membership in the cached/skipped lists of an image's blobs. -/
lemma cacheImageBlobs_mem (ls : List Digest) (cfg mf : Digest)
    (skip : List Digest) (h : Digest) :
    (h ∈ (cacheImageBlobs ls cfg mf skip).1 ↔
      h ∈ (ls ++ [cfg, mf]) ∧ h ∉ skip) ∧
    (h ∈ (cacheImageBlobs ls cfg mf skip).2 ↔
      h ∈ (ls ++ [cfg, mf]) ∧ h ∈ skip) := by
  unfold cacheImageBlobs
  constructor
  · rw [(cacheStep_mem _ _ _ _).1, (cacheStep_mem _ _ _ _).1,
      (cacheFold_mem _ _ _ _).1]
    constructor
    · rintro (((h0 | h0) | ⟨rfl, hs⟩) | ⟨rfl, hs⟩)
      · simp at h0
      · exact ⟨by simp [h0.1], h0.2⟩
      · exact ⟨by simp, hs⟩
      · exact ⟨by simp, hs⟩
    · rintro ⟨hmem, hs⟩
      rcases List.mem_append.mp hmem with hl | hcm
      · exact Or.inl (Or.inl (Or.inr ⟨hl, hs⟩))
      · rcases List.mem_cons.mp hcm with rfl | hcm
        · exact Or.inl (Or.inr ⟨rfl, hs⟩)
        · rcases List.mem_cons.mp hcm with rfl | hcm
          · exact Or.inr ⟨rfl, hs⟩
          · cases hcm
  · rw [(cacheStep_mem _ _ _ _).2, (cacheStep_mem _ _ _ _).2,
      (cacheFold_mem _ _ _ _).2]
    constructor
    · rintro (((h0 | h0) | ⟨rfl, hs⟩) | ⟨rfl, hs⟩)
      · simp at h0
      · exact ⟨by simp [h0.1], h0.2⟩
      · exact ⟨by simp, hs⟩
      · exact ⟨by simp, hs⟩
    · rintro ⟨hmem, hs⟩
      rcases List.mem_append.mp hmem with hl | hcm
      · exact Or.inl (Or.inl (Or.inr ⟨hl, hs⟩))
      · rcases List.mem_cons.mp hcm with rfl | hcm
        · exact Or.inl (Or.inr ⟨rfl, hs⟩)
        · rcases List.mem_cons.mp hcm with rfl | hcm
          · exact Or.inr ⟨rfl, hs⟩
          · cases hcm

mutual
/-- Membership in the cached/skipped lists for one index child: the
reachable digests split by presence in `skip`. -/
lemma cacheChild_mem (skip : List Digest) (t : ITree) (h : Digest) :
    (h ∈ (cacheChild skip t).1 ↔ h ∈ reachChild t ∧ h ∉ skip) ∧
    (h ∈ (cacheChild skip t).2 ↔ h ∈ reachChild t ∧ h ∈ skip) := by
  cases t with
  | img ls cfg d =>
    rw [show cacheChild skip (.img ls cfg d) = cacheImageBlobs ls cfg d skip
      from rfl]
    rw [show reachChild (.img ls cfg d) = ls ++ [cfg, d] from rfl]
    exact cacheImageBlobs_mem ls cfg d skip h
  | idx cs d =>
    have hrec := cacheChildren_mem skip cs h
    rw [show cacheChild skip (.idx cs d) =
      (let r := cacheChildren skip cs
       if d ∈ skip then (r.1, r.2 ++ [d]) else (r.1 ++ [d], r.2)) from rfl]
    rw [show reachChild (.idx cs d) = reachChildren cs ++ [d] from rfl]
    dsimp only
    by_cases hs : d ∈ skip
    · rw [if_pos hs]
      constructor
      · rw [hrec.1]
        constructor
        · rintro ⟨hr, hns⟩
          exact ⟨by simp [hr], hns⟩
        · rintro ⟨hmem, hns⟩
          rcases List.mem_append.mp hmem with hr | hd
          · exact ⟨hr, hns⟩
          · rcases List.mem_singleton.mp hd with rfl
            exact absurd hs hns
      · simp only [List.mem_append, List.mem_singleton, hrec.2]
        constructor
        · rintro (⟨hr, hins⟩ | rfl)
          · exact ⟨Or.inl hr, hins⟩
          · exact ⟨Or.inr rfl, hs⟩
        · rintro ⟨hr | rfl, hins⟩
          · exact Or.inl ⟨hr, hins⟩
          · exact Or.inr rfl
    · rw [if_neg hs]
      constructor
      · simp only [List.mem_append, List.mem_singleton, hrec.1]
        constructor
        · rintro (⟨hr, hns⟩ | rfl)
          · exact ⟨Or.inl hr, hns⟩
          · exact ⟨Or.inr rfl, hs⟩
        · rintro ⟨hr | rfl, hns⟩
          · exact Or.inl ⟨hr, hns⟩
          · exact Or.inr rfl
      · rw [hrec.2]
        constructor
        · rintro ⟨hr, hins⟩
          exact ⟨by simp [hr], hins⟩
        · rintro ⟨hmem, hins⟩
          rcases List.mem_append.mp hmem with hr | hd
          · exact ⟨hr, hins⟩
          · rcases List.mem_singleton.mp hd with rfl
            exact absurd hins hs

/-- Membership in the cached/skipped lists for a child list. -/
lemma cacheChildren_mem (skip : List Digest) (cs : ITreeList) (h : Digest) :
    (h ∈ (cacheChildren skip cs).1 ↔ h ∈ reachChildren cs ∧ h ∉ skip) ∧
    (h ∈ (cacheChildren skip cs).2 ↔ h ∈ reachChildren cs ∧ h ∈ skip) := by
  cases cs with
  | nil =>
    constructor
    · constructor
      · intro hx
        cases hx
      · rintro ⟨hx, -⟩
        cases hx
    · constructor
      · intro hx
        cases hx
      · rintro ⟨hx, -⟩
        cases hx
  | cons c rest =>
    have hc := cacheChild_mem skip c h
    have hr := cacheChildren_mem skip rest h
    rw [show cacheChildren skip (.cons c rest) =
      ((cacheChild skip c).1 ++ (cacheChildren skip rest).1,
       (cacheChild skip c).2 ++ (cacheChildren skip rest).2) from rfl]
    rw [show reachChildren (.cons c rest) =
      reachChild c ++ reachChildren rest from rfl]
    constructor
    · simp only [List.mem_append, hc.1, hr.1]
      tauto
    · simp only [List.mem_append, hc.2, hr.2]
      tauto
end

end Sif

namespace Sif

/-- Membership in the stored OCI-blob digest list. -/
lemma sifBlobs_mem (st : SIFState) (h : Digest) :
    h ∈ sifBlobs st ↔
      ∃ x ∈ st.descs, x.dtype = DType.ociBlob ∧ x.digest = h := by
  unfold sifBlobs
  simp only [List.mem_map, List.mem_filter, decide_eq_true_eq]
  constructor
  · rintro ⟨x, ⟨hx, hb⟩, rfl⟩
    exact ⟨x, hx, hb, rfl⟩
  · rintro ⟨x, hx, hb, rfl⟩
    exact ⟨x, ⟨hx, hb⟩, rfl⟩

/-- Membership in the descriptors kept by the deletion pass. -/
lemma mem_kept (st : SIFState) (keep : List Digest) (x : SifDescriptor) :
    x ∈ st.descs.filter (fun d => ¬ selectBlobsExcept keep d) ↔
      x ∈ st.descs ∧ x.digest ∈ keep := by
  simp [List.mem_filter, selectBlobsExcept]

/-- C1: for an index whose digest differs from the current root digest,
a successful `UpdateRootIndex` leaves the SIF holding the new index as its
unique root (reading it back yields its digest), and the stored OCI-blob
digest set equals exactly the set of digests transitively reachable from
the new index: unreachable blobs are deleted, reachable-but-missing blobs
are added.  The hypothesis `r ∉ sifBlobs st` is the well-formedness of a
SIF (its root-index manifest is not also stored as an OCI-blob), which
guarantees the old root descriptor is deleted. -/
theorem updateRootIndex_reconciles (st : SIFState) (children : ITreeList)
    (dig r : Digest)
    (h1 : getRootDigest st = .ok r)
    (h2 : r ≠ dig)
    (h3 : r ∉ sifBlobs st) :
    ∃ st', updateRootIndex st children dig = .ok st' ∧
      getRootDigest st' = .ok dig ∧
      (∀ h, h ∈ sifBlobs st' ↔ h ∈ reachChildren children) := by
  obtain ⟨d0, hf, hd0⟩ : ∃ d0,
      st.descs.filter (fun d => d.dtype = DType.ociRootIndex) = [d0] ∧
      d0.digest = r := by
    unfold getRootDigest at h1
    rcases hf : st.descs.filter (fun d => d.dtype = DType.ociRootIndex) with
      _ | ⟨x, _ | ⟨y, rest⟩⟩
    · rw [hf] at h1
      cases h1
    · rw [hf] at h1
      cases h1
      exact ⟨x, hf, rfl⟩
    · rw [hf] at h1
      cases h1
  set keep := (cacheChildren (sifBlobs st) children).2 with hkeep
  set cached := (cacheChildren (sifBlobs st) children).1 with hcached
  have hkeep_sub : ∀ h, h ∈ keep → h ∈ sifBlobs st := by
    intro h hh
    exact ((cacheChildren_mem (sifBlobs st) children h).2.mp hh).2
  refine ⟨⟨(st.descs.filter (fun d => ¬ selectBlobsExcept keep d) ++
      cached.map (fun h => ⟨DType.ociBlob, h⟩)) ++
      [⟨DType.ociRootIndex, dig⟩]⟩, ?_, ?_, ?_⟩
  · unfold updateRootIndex
    rw [h1]
    dsimp only
    rw [if_neg h2]
  · unfold getRootDigest
    have hkept : (st.descs.filter
        (fun d => ¬ selectBlobsExcept keep d)).filter
        (fun d => d.dtype = DType.ociRootIndex) = [] := by
      rw [List.filter_eq_nil_iff]
      intro x hx
      rcases List.mem_filter.mp hx with ⟨hxs, hxk⟩
      intro hxr
      have hxmem : x ∈ st.descs.filter
          (fun d => d.dtype = DType.ociRootIndex) := by
        rw [List.mem_filter]
        exact ⟨hxs, hxr⟩
      rw [hf, List.mem_singleton] at hxmem
      subst hxmem
      simp only [selectBlobsExcept, decide_not, Bool.not_eq_true',
        decide_eq_false_iff_not, not_not, decide_eq_true_eq] at hxk
      exact h3 (hkeep_sub _ (hd0 ▸ hxk))
    have hcachedf : (cached.map
        (fun h => (⟨DType.ociBlob, h⟩ : SifDescriptor))).filter
        (fun d => d.dtype = DType.ociRootIndex) = [] := by
      rw [List.filter_eq_nil_iff]
      intro x hx
      rcases List.mem_map.mp hx with ⟨h, -, rfl⟩
      simp
    rw [List.filter_append, List.filter_append, hkept, hcachedf]
    simp
  · intro h
    rw [sifBlobs_mem]
    constructor
    · rintro ⟨x, hx, hxb, rfl⟩
      rcases List.mem_append.mp hx with hx | hx
      · rcases List.mem_append.mp hx with hx | hx
        · rcases (mem_kept st keep x).mp hx with ⟨-, hk⟩
          exact ((cacheChildren_mem (sifBlobs st) children x.digest).2.mp
            hk).1
        · rcases List.mem_map.mp hx with ⟨h', hh', heq⟩
          cases heq
          exact ((cacheChildren_mem (sifBlobs st) children h').1.mp hh').1
      · rcases List.mem_singleton.mp hx with rfl
        cases hxb
    · intro hr
      by_cases hsb : h ∈ sifBlobs st
      · have hk : h ∈ keep :=
          (cacheChildren_mem (sifBlobs st) children h).2.mpr ⟨hr, hsb⟩
        rcases (sifBlobs_mem st h).mp hsb with ⟨x, hx, hxb, rfl⟩
        refine ⟨x, ?_, hxb, rfl⟩
        exact List.mem_append.mpr (Or.inl (List.mem_append.mpr
          (Or.inl ((mem_kept st keep x).mpr ⟨hx, hk⟩))))
      · have hc : h ∈ cached :=
          (cacheChildren_mem (sifBlobs st) children h).1.mpr ⟨hr, hsb⟩
        refine ⟨⟨DType.ociBlob, h⟩, ?_, rfl, rfl⟩
        exact List.mem_append.mpr (Or.inl (List.mem_append.mpr
          (Or.inr (List.mem_map.mpr ⟨h, hc, rfl⟩))))

/-- Witness for `updateRootIndex_reconciles`: a SIF holding a root index
(digest 100) and one blob (digest 1), updated to an index containing one
image whose layer digest is 1, config digest 2 and manifest digest 3. -/
theorem updateRootIndex_reconciles_witness :
    ∃ st', updateRootIndex ⟨[⟨DType.ociRootIndex, 100⟩, ⟨DType.ociBlob, 1⟩]⟩
        (.cons (.img [1] 2 3) .nil) 50 = .ok st' ∧
      getRootDigest st' = .ok 50 ∧
      (∀ h, h ∈ sifBlobs st' ↔
        h ∈ reachChildren (.cons (.img [1] 2 3) .nil)) :=
  updateRootIndex_reconciles ⟨[⟨DType.ociRootIndex, 100⟩, ⟨DType.ociBlob, 1⟩]⟩
    (.cons (.img [1] 2 3) .nil) 50 100 (by rfl) (by decide) (by decide)

end Sif

namespace Tar

/-- Strings with equal character data are equal. -/
lemma strExt {a b : String} (h : a.data = b.data) : a = b := by
  cases a
  cases b
  cases h
  rfl

/-- `takeWhile` over a list all of whose elements satisfy the predicate. -/
lemma takeWhile_all {P : Char → Bool} :
    ∀ {l : List Char}, (∀ c ∈ l, P c = true) → l.takeWhile P = l := by
  intro l h
  induction l with
  | nil => rfl
  | cons c t ih =>
    rw [List.takeWhile_cons, if_pos (h c (List.mem_cons_self _ _))]
    rw [ih (fun x hx => h x (List.mem_cons_of_mem c hx))]

/-- `dropWhile` over a list all of whose elements satisfy the predicate. -/
lemma dropWhile_all {P : Char → Bool} :
    ∀ {l : List Char}, (∀ c ∈ l, P c = true) → l.dropWhile P = [] := by
  intro l h
  induction l with
  | nil => rfl
  | cons c t ih =>
    rw [List.dropWhile_cons, if_pos (h c (List.mem_cons_self _ _))]
    exact ih (fun x hx => h x (List.mem_cons_of_mem c hx))

/-- `takeWhile` stops exactly at the first failing element. -/
lemma takeWhile_append_stop {P : Char → Bool} (xs : List Char) (y : Char)
    (ys : List Char) (hxs : ∀ c ∈ xs, P c = true) (hy : P y = false) :
    (xs ++ y :: ys).takeWhile P = xs := by
  induction xs with
  | nil =>
    rw [List.nil_append, List.takeWhile_cons]
    simp [hy]
  | cons c t ih =>
    rw [List.cons_append, List.takeWhile_cons,
      if_pos (hxs c (List.mem_cons_self _ _))]
    rw [ih (fun x hx => hxs x (List.mem_cons_of_mem c hx))]

/-- `dropWhile` keeps everything from the first failing element. -/
lemma dropWhile_append_stop {P : Char → Bool} (xs : List Char) (y : Char)
    (ys : List Char) (hxs : ∀ c ∈ xs, P c = true) (hy : P y = false) :
    (xs ++ y :: ys).dropWhile P = y :: ys := by
  induction xs with
  | nil =>
    rw [List.nil_append, List.dropWhile_cons]
    simp [hy]
  | cons c t ih =>
    rw [List.cons_append, List.dropWhile_cons,
      if_pos (hxs c (List.mem_cons_self _ _))]
    exact ih (fun x hx => hxs x (List.mem_cons_of_mem c hx))

/-- The head of a `dropWhile` result fails the predicate. -/
lemma dropWhile_head_false {P : Char → Bool} :
    ∀ {l : List Char} {c : Char} {t : List Char},
      List.dropWhile P l = c :: t → P c = false := by
  intro l
  induction l with
  | nil =>
    intro c t h
    cases h
  | cons x xs ih =>
    intro c t h
    rw [List.dropWhile_cons] at h
    by_cases hx : P x = true
    · rw [if_pos hx] at h
      exact ih h
    · rw [if_neg hx] at h
      cases h
      exact Bool.not_eq_true _ ▸ hx

/-- `filepath.Split` of a concatenation whose second part holds no
separator and whose first part is empty or ends in a separator. -/
lemma splitPath_concat (p b : String) (hb : ∀ c ∈ b.data, c ≠ '/')
    (hp : p.data = [] ∨ p.data.getLast? = some '/') :
    splitPath (p ++ b) = (p, b) := by
  unfold splitPath
  dsimp only
  rw [String.data_append, List.reverse_append]
  have hb' : ∀ c ∈ b.data.reverse, (fun c => decide (c ≠ '/')) c = true := by
    intro c hc
    simp [hb c (List.mem_reverse.mp hc)]
  rcases hp with hp | hp
  · rw [hp]
    simp only [List.reverse_nil, List.append_nil]
    rw [takeWhile_all hb', dropWhile_all hb']
    refine Prod.ext ?_ ?_
    · exact strExt (by simpa using hp.symm)
    · exact strExt (by simp)
  · rw [← List.head?_reverse] at hp
    obtain ⟨t, hrev⟩ : ∃ t, p.data.reverse = '/' :: t := by
      rcases hl : p.data.reverse with _ | ⟨c, t⟩
      · rw [hl] at hp
        cases hp
      · rw [hl] at hp
        simp only [List.head?_cons, Option.some_inj] at hp
        exact ⟨t, by rw [hp]⟩
    rw [hrev]
    rw [takeWhile_append_stop _ _ _ hb' (by simp),
      dropWhile_append_stop _ _ _ hb' (by simp)]
    refine Prod.ext ?_ ?_
    · refine strExt ?_
      show ('/' :: t).reverse = p.data
      rw [← hrev, List.reverse_reverse]
    · exact strExt (by simp)

/-- `filepath.Split` decomposes its argument. -/
lemma splitPath_decomp (s : String) :
    (splitPath s).1 ++ (splitPath s).2 = s := by
  unfold splitPath
  refine strExt ?_
  rw [String.data_append]
  show (List.dropWhile _ s.data.reverse).reverse ++
    (List.takeWhile _ s.data.reverse).reverse = s.data
  rw [← List.reverse_append, List.takeWhile_append_dropWhile,
    List.reverse_reverse]

/-- The base part of `filepath.Split` holds no separator. -/
lemma splitPath_base_no_slash (s : String) :
    ∀ c ∈ (splitPath s).2.data, c ≠ '/' := by
  intro c hc
  have : c ∈ List.takeWhile (fun c => decide (c ≠ '/')) s.data.reverse := by
    simpa [splitPath] using List.mem_reverse.mp hc
  simpa using List.mem_takeWhile_imp this

/-- The parent part of `filepath.Split` is empty or ends in a
separator. -/
lemma splitPath_parent_form (s : String) :
    (splitPath s).1.data = [] ∨ (splitPath s).1.data.getLast? = some '/' := by
  show (List.dropWhile _ s.data.reverse).reverse = [] ∨
    (List.dropWhile _ s.data.reverse).reverse.getLast? = some '/'
  rcases hd : List.dropWhile (fun c => decide (c ≠ '/')) s.data.reverse with
    _ | ⟨c, t⟩
  · left
    rfl
  · right
    rw [List.getLast?_reverse]
    have := dropWhile_head_false hd
    simp only [decide_eq_false_iff_not, not_not] at this
    rw [this]
    rfl

/-- A name ending in a separator has an empty base part. -/
lemma splitPath_ends_slash (s : String)
    (h : s.data.getLast? = some '/') : (splitPath s).2 = "" := by
  unfold splitPath
  dsimp only
  rw [← List.head?_reverse] at h
  obtain ⟨t, hrev⟩ : ∃ t, s.data.reverse = '/' :: t := by
    rcases hl : s.data.reverse with _ | ⟨c, t⟩
    · rw [hl] at h
      cases h
    · rw [hl] at h
      simp only [List.head?_cons, Option.some_inj] at h
      exact ⟨t, by rw [h]⟩
  rw [hrev, List.takeWhile_cons]
  simp

/-- `strings.TrimSuffix(s, "/") + "/"` restores a name that ends in a
separator. -/
lemma trimSlash_concat (s : String) (h : s.data.getLast? = some '/') :
    trimSlashSuffix s ++ "/" = s := by
  have hne : s.data ≠ [] := by
    intro hnil
    rw [hnil] at h
    cases h
  unfold trimSlashSuffix
  rw [if_pos ⟨hne, h⟩]
  refine strExt ?_
  rw [String.data_append]
  show s.data.dropLast ++ ['/'] = s.data
  have hlast : s.data.getLast hne = '/' := by
    have h2 := List.getLast?_eq_getLast s.data hne
    rw [h2] at h
    injection h
  rw [← hlast]
  exact List.dropLast_append_getLast hne

end Tar

namespace Sif

/-- A Go map write makes the key readable with the written value. -/
lemma annGet_annSet (P : List (String × String)) (k v : String) :
    annGet (annSet P k v) k = some v := by
  unfold annSet
  by_cases hf : (List.find? (fun p => p.1 = k) P).isSome = true
  · rw [if_pos hf]
    induction P with
    | nil => simp at hf
    | cons p0 t ih =>
      rw [List.map_cons]
      by_cases h0 : p0.1 = k
      · rw [if_pos h0]
        unfold annGet
        rw [List.find?_cons_of_pos _ (by simp)]
        rfl
      · rw [if_neg h0]
        unfold annGet
        rw [List.find?_cons_of_neg _ (by simp [h0])]
        rw [List.find?_cons_of_neg _ (by simp [h0])] at hf
        exact ih hf
  · rw [if_neg hf]
    unfold annGet
    rw [List.find?_append]
    have hnone : List.find? (fun p => p.1 = k) P = none := by
      rcases hopt : List.find? (fun p => p.1 = k) P with _ | x
      · exact hopt
      · rw [hopt] at hf
        simp at hf
    rw [hnone, List.find?_cons_of_pos _ (by simp)]
    rfl

/-- Deleting a freshly-written key from a map that never held it restores
the original map. -/
lemma annDelete_annSet_none (P : List (String × String)) (k v : String)
    (h : annGet P k = none) : annDelete (annSet P k v) k = P := by
  have hfind : List.find? (fun p => p.1 = k) P = none :=
    Option.map_eq_none'.mp h
  have habsent : ∀ p ∈ P, ¬ p.1 = k := by
    intro p hp
    have := List.find?_eq_none.mp hfind p hp
    simpa using this
  unfold annSet
  rw [if_neg (by rw [hfind]; simp)]
  unfold annDelete
  rw [List.filter_append]
  rw [List.filter_eq_self.mpr (fun p hp => by simp [habsent p hp])]
  simp

end Sif

namespace Tar

/-- `strings.TrimPrefix` undone by re-prepending the prefix. -/
lemma trimPre_concat (pre s : String) (h : strHasPre pre s = true) :
    pre ++ trimPre pre s = s := by
  unfold strHasPre at h
  obtain ⟨t, ht⟩ := (List.isPrefixOf_iff_prefix.mp h)
  unfold trimPre
  rw [if_pos h]
  refine strExt ?_
  rw [String.data_append]
  show pre.data ++ List.drop pre.data.length s.data = s.data
  rw [← ht, List.drop_left]

/-- Characters of a trimmed string come from the original. -/
lemma trimPre_subset (pre s : String) :
    ∀ c ∈ (trimPre pre s).data, c ∈ s.data := by
  intro c hc
  unfold trimPre at hc
  by_cases h : pre.data.isPrefixOf s.data = true
  · rw [if_pos h] at hc
    exact List.drop_subset _ _ hc
  · rw [if_neg h] at hc
    exact hc

end Tar

namespace Tar

/-- The opaque marker name carries the whiteout filename marker. -/
lemma marker_hasPre : strHasPre aufsWhPre aufsOpaqueMarker = true := by
  decide

/-- The forward pass over one canonical block prepends its translated
entries. -/
lemma fwdBlock_spec (O : List String) (b : WhBlock) (rest : List TarEntry)
    (hb : blockOk O b = true) :
    whiteoutsToOverlayFS (renderBlock b ++ rest) O =
      (whiteoutsToOverlayFS rest O).map (fun out => fwdBlock b ++ out) := by
  cases b with
  | ord e =>
    simp only [blockOk, Bool.and_eq_true, Bool.not_eq_true',
      decide_eq_true_eq] at hb
    obtain ⟨⟨⟨h1, h2⟩, h3⟩, h4⟩ := hb
    show whiteoutsToOverlayFS (e :: rest) O = _
    rw [whiteoutsToOverlayFS]
    dsimp only
    have hm : ¬ (splitPath e.hdr.name).2 = aufsOpaqueMarker := by
      intro hmk
      rw [hmk] at h1
      exact absurd h1 (by decide)
    rw [if_neg hm, if_neg h4, if_neg (by simp [h1])]
    rfl
  | wh h =>
    simp only [blockOk, Bool.and_eq_true, decide_eq_true_eq] at hb
    obtain ⟨⟨⟨⟨⟨⟨⟨h1, h2⟩, h3⟩, h4⟩, h5⟩, h6⟩, h7⟩, h8⟩ := hb
    show whiteoutsToOverlayFS (⟨h, []⟩ :: rest) O = _
    rw [whiteoutsToOverlayFS]
    dsimp only
    rw [if_neg h2, if_neg h8, if_pos h1]
    rfl
  | opq d =>
    simp only [blockOk, Bool.and_eq_true, decide_eq_true_eq] at hb
    obtain ⟨⟨⟨h1, h2⟩, h3⟩, h4⟩ := hb
    show whiteoutsToOverlayFS
      (⟨d, []⟩ :: ⟨opaqueMarkerFor d, []⟩ :: rest) O = _
    rw [whiteoutsToOverlayFS]
    dsimp only
    have hbase : (splitPath d.name).2 = "" := splitPath_ends_slash _ h2
    rw [hbase]
    rw [if_neg (by decide : ¬ ("" : String) = aufsOpaqueMarker), if_pos h4,
      if_neg (by decide : ¬ strHasPre aufsWhPre "" = true)]
    have hsplitm : splitPath (opaqueMarkerFor d).name =
        (d.name, aufsOpaqueMarker) := by
      show splitPath (trimSlashSuffix d.name ++ "/" ++ aufsOpaqueMarker) = _
      rw [splitPath_concat (trimSlashSuffix d.name ++ "/") aufsOpaqueMarker
        (by decide)
        (Or.inr (by rw [String.data_append]; exact List.getLast?_concat _))]
      rw [trimSlash_concat d.name h2]
    rw [whiteoutsToOverlayFS]
    dsimp only
    rw [hsplitm]
    rw [if_pos rfl, if_neg (not_not_intro h4)]
    rfl

/-- The backward pass over one translated canonical block restores the
block's original entries. -/
lemma bwdBlock_spec (O : List String) (b : WhBlock) (rest' : List TarEntry)
    (hb : blockOk O b = true) :
    whiteoutsToAUFS (fwdBlock b ++ rest') =
      renderBlock b ++ whiteoutsToAUFS rest' := by
  cases b with
  | ord e =>
    simp only [blockOk, Bool.and_eq_true, Bool.not_eq_true',
      decide_eq_true_eq] at hb
    obtain ⟨⟨⟨h1, h2⟩, h3⟩, h4⟩ := hb
    show whiteoutsToAUFS (e :: rest') = e :: whiteoutsToAUFS rest'
    rw [whiteoutsToAUFS]
    dsimp only
    rw [if_neg (by rintro ⟨-, hy⟩; exact h3 hy),
      if_neg (by rintro ⟨hc, -⟩; exact h2 hc)]
  | wh h =>
    simp only [blockOk, Bool.and_eq_true, decide_eq_true_eq] at hb
    obtain ⟨⟨⟨⟨⟨⟨⟨h1, h2⟩, h3⟩, h4⟩, h5⟩, h6⟩, h7⟩, h8⟩ := hb
    show whiteoutsToAUFS (⟨_, []⟩ :: rest') =
      ⟨h, []⟩ :: whiteoutsToAUFS rest'
    rw [whiteoutsToAUFS]
    dsimp only
    rw [if_neg (by rintro ⟨hcd, -⟩; simp at hcd),
      if_pos ⟨rfl, rfl, rfl⟩]
    have hsplit' : splitPath ((splitPath h.name).1 ++
        trimPre aufsWhPre (splitPath h.name).2) =
        ((splitPath h.name).1, trimPre aufsWhPre (splitPath h.name).2) := by
      refine splitPath_concat _ _ ?_ (splitPath_parent_form h.name)
      intro c hc
      exact splitPath_base_no_slash h.name c
        (trimPre_subset aufsWhPre (splitPath h.name).2 c hc)
    rw [hsplit']
    have hname : (splitPath h.name).1 ++ aufsWhPre ++
        trimPre aufsWhPre (splitPath h.name).2 = h.name := by
      rw [String.append_assoc, trimPre_concat _ _ h1, splitPath_decomp]
    rw [hname]
    rcases h with ⟨nm, tf, ln, sz, md, u, g, un, gn, mt, at0, ct, dj, dn, px⟩
    dsimp only at h3 h4 h5 h6 h7
    subst h3
    subst h4
    subst h5
    subst h6
    subst h7
    rfl
  | opq d =>
    simp only [blockOk, Bool.and_eq_true, decide_eq_true_eq] at hb
    obtain ⟨⟨⟨h1, h2⟩, h3⟩, h4⟩ := hb
    show whiteoutsToAUFS (⟨_, []⟩ :: rest') =
      ⟨d, []⟩ :: ⟨opaqueMarkerFor d, []⟩ :: whiteoutsToAUFS rest'
    rw [whiteoutsToAUFS]
    dsimp only
    rw [if_pos ⟨h1, Sif.annGet_annSet _ _ _⟩]
    rw [Sif.annDelete_annSet_none _ _ _ h3]

/-- Rendering distributes over cons. -/
lemma renderAll_cons (b : WhBlock) (bs : List WhBlock) :
    renderAll (b :: bs) = renderBlock b ++ renderAll bs := by
  unfold renderAll
  rw [List.map_cons, List.flatten_cons]

/-- Splitting the name of a re-created opaque marker. -/
lemma splitPath_markerFor (d : TarHeader)
    (h2 : d.name.data.getLast? = some '/') :
    splitPath (opaqueMarkerFor d).name = (d.name, aufsOpaqueMarker) := by
  show splitPath (trimSlashSuffix d.name ++ "/" ++ aufsOpaqueMarker) = _
  rw [splitPath_concat (trimSlashSuffix d.name ++ "/") aufsOpaqueMarker
    (by decide)
    (Or.inr (by rw [String.data_append]; exact List.getLast?_concat _))]
  rw [trimSlash_concat d.name h2]

/-- For a canonical block list, the scanned opaque set is exactly the set
of opaque directory names. -/
lemma scan_renderAll_mem (bs : List WhBlock)
    (h : ∀ b ∈ bs, blockOk (opqNames bs) b = true) (p : String) :
    p ∈ (scanAUFSWhiteouts (renderAll bs)).1 ↔ p ∈ opqNames bs := by
  rw [scanAUFSWhiteouts, scan_foldl_fst]
  simp only [List.not_mem_nil, false_or]
  constructor
  · rintro ⟨e, he, hmk, hp⟩
    rcases List.mem_flatten.mp he with ⟨l, hl, hel⟩
    rcases List.mem_map.mp hl with ⟨b, hbmem, rfl⟩
    have hb := h b hbmem
    cases b with
    | ord e0 =>
      simp only [blockOk, Bool.and_eq_true, Bool.not_eq_true',
        decide_eq_true_eq] at hb
      rcases List.mem_singleton.mp hel with rfl
      rw [hmk] at hb
      exact absurd hb.1.1.1 (by decide)
    | wh h0 =>
      simp only [blockOk, Bool.and_eq_true, decide_eq_true_eq] at hb
      rcases List.mem_singleton.mp hel with rfl
      exact absurd hmk hb.1.1.1.1.1.1.2
    | opq d =>
      simp only [blockOk, Bool.and_eq_true, decide_eq_true_eq] at hb
      rcases List.mem_cons.mp hel with rfl | hel
      · have hbase : (splitPath d.name).2 = "" :=
          splitPath_ends_slash _ hb.1.1.2
        rw [hbase] at hmk
        exact absurd hmk (by decide)
      · rcases List.mem_singleton.mp hel with rfl
        rw [splitPath_markerFor d hb.1.1.2] at hp
        subst hp
        exact List.mem_filterMap.mpr ⟨.opq d, hbmem, rfl⟩
  · intro hp
    rcases List.mem_filterMap.mp hp with ⟨b, hbmem, hfb⟩
    cases b with
    | ord e0 => cases hfb
    | wh h0 => cases hfb
    | opq d =>
      have hd : d.name = p := by
        cases hfb
        rfl
      have hb := h _ hbmem
      simp only [blockOk, Bool.and_eq_true, decide_eq_true_eq] at hb
      refine ⟨⟨opaqueMarkerFor d, []⟩, ?_, ?_, ?_⟩
      · exact List.mem_flatten.mpr ⟨renderBlock (.opq d),
          List.mem_map.mpr ⟨.opq d, hbmem, rfl⟩, by
            simp [renderBlock]⟩
      · rw [splitPath_markerFor d hb.1.1.2]
      · rw [splitPath_markerFor d hb.1.1.2]
        exact hd
  
/-- Round trip over a list of canonical blocks, for a fixed opaque set. -/
lemma roundTrip_blocks (O : List String) (bs : List WhBlock)
    (h : ∀ b ∈ bs, blockOk O b = true) :
    (whiteoutsToOverlayFS (renderAll bs) O).map whiteoutsToAUFS =
      .ok (renderAll bs) := by
  induction bs with
  | nil => rfl
  | cons b rest ih =>
    have hb := h b (List.mem_cons_self _ _)
    have hr := ih (fun x hx => h x (List.mem_cons_of_mem _ hx))
    rw [renderAll_cons, fwdBlock_spec O b _ hb]
    rcases hcall : whiteoutsToOverlayFS (renderAll rest) O with e | out
    · rw [hcall] at hr
      exact absurd hr (by simp [Except.map])
    · rw [hcall] at hr
      have hout : whiteoutsToAUFS out = renderAll rest := by
        simpa [Except.map] using hr
      show Except.map whiteoutsToAUFS
        (Except.map (fun out => fwdBlock b ++ out) (.ok out)) = _
      simp only [Except.map]
      rw [bwdBlock_spec O b out hb, hout]

/-- Canonical-form conditions transport along membership-equal opaque
sets. -/
lemma blockOk_set_congr (O1 O2 : List String)
    (hset : ∀ p, p ∈ O1 ↔ p ∈ O2) (b : WhBlock)
    (h : blockOk O1 b = true) : blockOk O2 b = true := by
  cases b with
  | ord e =>
    simp only [blockOk, Bool.and_eq_true, Bool.not_eq_true',
      decide_eq_true_eq] at h ⊢
    exact ⟨h.1, fun hm => h.2 ((hset _).mpr hm)⟩
  | wh h0 =>
    simp only [blockOk, Bool.and_eq_true, decide_eq_true_eq] at h ⊢
    exact ⟨h.1, fun hm => h.2 ((hset _).mpr hm)⟩
  | opq d =>
    simp only [blockOk, Bool.and_eq_true, decide_eq_true_eq] at h ⊢
    exact ⟨h.1, (hset _).mp h.2⟩

/-- C3 (amended): on a canonical AUFS stream — whiteout files are
zero-size `0600` regular entries, each opaque marker directly follows its
trailing-slash directory and inherits its identity fields, and there are
no character devices or overlay xattrs — the AUFS → OverlayFS → AUFS
pipeline reproduces the stream exactly.  (Framing/Format is outside the
model; the counterexample shows that whiteout metadata outside this
canonical form is normalised rather than restored.) -/
theorem aufs_overlay_roundtrip_canonical (bs : List WhBlock)
    (h : canonicalAUFS bs = true) :
    (whiteoutsToOverlayFS (renderAll bs)
      (scanAUFSWhiteouts (renderAll bs)).1).map whiteoutsToAUFS =
      .ok (renderAll bs) := by
  have hcanon : ∀ b ∈ bs, blockOk (opqNames bs) b = true := by
    simpa [canonicalAUFS, List.all_eq_true] using h
  have hset := scan_renderAll_mem bs hcanon
  exact roundTrip_blocks _ bs (fun b hb =>
    blockOk_set_congr _ _ (fun p => (hset p).symm) b (hcanon b hb))

/-- Witness for `aufs_overlay_roundtrip_canonical` at a concrete canonical
stream. -/
theorem aufs_overlay_roundtrip_canonical_witness :
    (whiteoutsToOverlayFS (renderAll sampleCanonicalBlocks)
      (scanAUFSWhiteouts (renderAll sampleCanonicalBlocks)).1).map
      whiteoutsToAUFS = .ok (renderAll sampleCanonicalBlocks) :=
  aufs_overlay_roundtrip_canonical sampleCanonicalBlocks (by decide)

/-- C3 (counterexample): a stream with a single whiteout file of mode
`0644`.  The round trip rewrites the whiteout's mode to `0600`, so the
entry metadata is not restored and the round-tripped stream differs from
the input. -/
theorem aufs_roundtrip_mode_counterexample :
    aufsRoundTrip
      [⟨{ name := ".wh.f", typeflag := TypeFlag.reg, mode := 0o644 }, []⟩] =
      .ok [⟨{ name := ".wh.f", typeflag := TypeFlag.reg,
              mode := 0o600 }, []⟩] ∧
    (0o644 : Int) ≠ 0o600 := by
  constructor
  · rfl
  · decide

end Tar
